import Mathlib

/-!
Verification of the core simulation of the `orcs` colony simulator.

The definitions below are a shallow embedding of the Rust sources
(`world.rs`, `pathfinding.rs`, `animal.rs`, `orc.rs`, `app.rs`):
tile grids become total functions from coordinates to terrain,
`f32` physiological scalars become rationals, the shared `Rng` becomes
an explicit stream of naturals threaded through every draw site, and
the A* main loop becomes a fuel-indexed recursion (the fuel is large
enough that it never runs out before the 5000-expansion budget does).
-/

namespace Orcs

/-- Map width, `world.rs` MAP_WIDTH. -/
def MAP_WIDTH : Nat := 300

/-- Map height, `world.rs` MAP_HEIGHT. -/
def MAP_HEIGHT : Nat := 150

/-- Terrain tags, `world.rs` enum Terrain. -/
inductive Terrain
  | Grass
  | Tree
  | Rock
  | Water
  | Campfire
  | Food
  | Bush
  | DepletedBush
  | MeatRack
deriving DecidableEq, Repr

/-- Walkability of a terrain, `Terrain::walkable`: only Rock and Water are blocked. -/
def Terrain.walkable : Terrain → Bool
  | .Rock => false
  | .Water => false
  | _ => true

/-- World state, `world.rs` struct World.  The `Vec<Vec<Terrain>>` tile grid is
embedded as a total function on coordinates (callers always stay in bounds). -/
structure World where
  tiles : Nat → Nat → Terrain
  campfire_pos : Nat × Nat
  food_stockpile : Nat
  regrowth_timers : List (Nat × Nat × Nat)

/-- Tile read, `World::get` (`self.tiles[y][x]`). -/
def World.get (w : World) (x y : Nat) : Terrain := w.tiles x y

/-- Tile write, `World::set`. -/
def World.set (w : World) (x y : Nat) (t : Terrain) : World :=
  { w with tiles := fun a b => if a = x ∧ b = y then t else w.tiles a b }

/-- Bounds-checked walkability, `World::is_walkable`. -/
def World.is_walkable (w : World) (x y : Nat) : Bool :=
  if MAP_WIDTH ≤ x ∨ MAP_HEIGHT ≤ y then false
  else (w.get x y).walkable

/-- Bush depletion, `World::deplete_bush`: Bush becomes DepletedBush and a
regrowth timer for `current_tick + 80` is pushed. -/
def World.deplete_bush (w : World) (x y : Nat) (current_tick : Nat) : World :=
  if w.tiles x y = Terrain.Bush then
    { w.set x y Terrain.DepletedBush with
      regrowth_timers := w.regrowth_timers ++ [(x, y, current_tick + 80)] }
  else w

/-- Regrowth sweep, `World::tick_regrowth`: every due timer is removed, and its
tile is restored to Bush if it still holds DepletedBush. -/
def World.tick_regrowth (w : World) (current_tick : Nat) : World :=
  let regrown := w.regrowth_timers.filter (fun t => decide (t.2.2 ≤ current_tick))
  let remaining := w.regrowth_timers.filter (fun t => decide (current_tick < t.2.2))
  let w1 := { w with regrowth_timers := remaining }
  regrown.foldl
    (fun wa t =>
      if wa.get t.1 t.2.1 = Terrain.DepletedBush then wa.set t.1 t.2.1 Terrain.Bush else wa)
    w1

/-- Absolute difference on naturals, `usize::abs_diff` (written in the
truncated-subtraction form so that omega can see through it). -/
def abs_diff (a b : Nat) : Nat := (a - b) + (b - a)

/-- One cell of the `World::find_nearest` scan: keep the first strict minimum
of the Manhattan distance among tiles of the wanted terrain. -/
def nearestStep (w : World) (from_x from_y : Nat) (t : Terrain) (y : Nat)
    (best : Option (Nat × Nat × Nat)) (x : Nat) : Option (Nat × Nat × Nat) :=
  if w.tiles x y = t then
    let dist := abs_diff from_x x + abs_diff from_y y
    match best with
    | none => some (x, y, dist)
    | some b => if dist < b.2.2 then some (x, y, dist) else best
  else best

/-- One row of the `World::find_nearest` scan. -/
def nearestRow (w : World) (from_x from_y : Nat) (t : Terrain)
    (best : Option (Nat × Nat × Nat)) (y : Nat) : Option (Nat × Nat × Nat) :=
  (List.range MAP_WIDTH).foldl (nearestStep w from_x from_y t y) best

/-- Full-grid scan for the nearest tile of a given terrain, `World::find_nearest`:
row-major scan keeping the first strict minimum of the Manhattan distance. -/
def World.find_nearest (w : World) (from_x from_y : Nat) (t : Terrain) :
    Option (Nat × Nat) :=
  ((List.range MAP_HEIGHT).foldl (nearestRow w from_x from_y t)
      (none : Option (Nat × Nat × Nat))).map (fun b => (b.1, b.2.1))

/-- Clamp of a possibly negative coordinate into `[0, hi]`,
the `(v as i32).clamp(0, hi as i32 - 1) as usize` pattern. -/
def clampCoord (v : Int) (hi : Nat) : Nat := min v.toNat hi

/-- One orthogonal-neighbor candidate of `World::find_water_adjacent`: keep the
first strict minimum among the walkable neighbors of the water tile. -/
def waterAdjStep (w : World) (from_x from_y wx wy : Nat)
    (best : Option (Nat × Nat × Nat)) (d : Int × Int) : Option (Nat × Nat × Nat) :=
  let nx := clampCoord ((wx : Int) + d.1) (MAP_WIDTH - 1)
  let ny := clampCoord ((wy : Int) + d.2) (MAP_HEIGHT - 1)
  if w.is_walkable nx ny then
    let dist := abs_diff from_x nx + abs_diff from_y ny
    match best with
    | none => some (nx, ny, dist)
    | some b => if dist < b.2.2 then some (nx, ny, dist) else best
  else best

/-- Walkable orthogonal neighbor of the nearest water tile closest to `from`,
`World::find_water_adjacent`. -/
def World.find_water_adjacent (w : World) (from_x from_y : Nat) :
    Option (Nat × Nat) :=
  match w.find_nearest from_x from_y Terrain.Water with
  | none => none
  | some (wx, wy) =>
    (([(0, 1), (0, -1), (1, 0), (-1, 0)] : List (Int × Int)).foldl
        (waterAdjStep w from_x from_y wx wy)
        (none : Option (Nat × Nat × Nat))).map (fun b => (b.1, b.2.1))

/-- Meat rack position, `World::meat_rack_pos`: the fixed campfire offset,
provided the tile there still holds MeatRack. -/
def World.meat_rack_pos (w : World) : Option (Nat × Nat) :=
  let x := w.campfire_pos.1 + 2
  let y := w.campfire_pos.2 + 2
  if x < MAP_WIDTH ∧ y < MAP_HEIGHT ∧ w.tiles x y = Terrain.MeatRack then some (x, y)
  else none

/-! ## Pathfinding engine (`pathfinding.rs`) -/

/-- Search node, `pathfinding.rs` struct Node: `cost` is g, `priority` is f. -/
structure Node where
  x : Nat
  y : Nat
  cost : Nat
  priority : Nat
deriving DecidableEq, Repr

/-- Octile heuristic with weights 10/14, `pathfinding.rs` fn heuristic. -/
def heuristic (x y gx gy : Nat) : Nat :=
  let dx := abs_diff x gx
  let dy := abs_diff y gy
  let diag := min dx dy
  let straight := max dx dy - diag
  diag * 14 + straight * 10

/-- The 8-connected neighbor offsets in source order. -/
def DIRS : List (Int × Int) :=
  [(-1, -1), (-1, 0), (-1, 1), (0, -1), (0, 1), (1, -1), (1, 0), (1, 1)]

/-- Extraction of a minimum-priority node from the open list.  The Rust
`BinaryHeap` pop order among equal priorities is unspecified; this embedding
resolves ties to the earliest-pushed entry. -/
def popMin : List Node → Option (Node × List Node)
  | [] => none
  | n :: ns =>
    match popMin ns with
    | none => some (n, [])
    | some (m, rest) =>
      if n.priority ≤ m.priority then some (n, ns) else some (m, n :: rest)

/-- Mutable search state of the A* loop: open list, visited grid, predecessor
grid, g-cost grid (`none` embeds the `usize::MAX` sentinel) and the expansion
counter `searched`. -/
structure SearchState where
  openList : List Node
  visited : Nat → Nat → Bool
  came_from : Nat → Nat → Option (Nat × Nat)
  g_cost : Nat → Nat → Option Nat
  searched : Nat

/-- Comparison `new_cost < g_cost[ny][nx]` where an unset cost is `usize::MAX`. -/
def ltG (n : Nat) : Option Nat → Bool
  | none => true
  | some m => decide (n < m)

/-- Expansion budget, `pathfinding.rs` max_search. -/
def max_search : Nat := 5000

/-- One neighbor-relaxation step of the A* loop body (the inside of the
`for &(dx, dy) in ...` loop of `find_path`). -/
def expandOne (w : World) (gx gy : Nat) (allow_tree : Bool) (current : Node)
    (st : SearchState) (d : Int × Int) : SearchState :=
  let nxi : Int := (current.x : Int) + d.1
  let nyi : Int := (current.y : Int) + d.2
  if nxi < 0 ∨ nyi < 0 ∨ (MAP_WIDTH : Int) ≤ nxi ∨ (MAP_HEIGHT : Int) ≤ nyi then st
  else
    let nx := nxi.toNat
    let ny := nyi.toNat
    if st.visited nx ny then st
    else if ¬ ((nx = gx ∧ ny = gy) ∨ w.is_walkable nx ny = true ∨
        (allow_tree = true ∧ w.get nx ny = Terrain.Tree)) then st
    else
      let move_cost : Nat := if d.1 ≠ 0 ∧ d.2 ≠ 0 then 14 else 10
      let new_cost := current.cost + move_cost
      if ltG new_cost (st.g_cost nx ny) then
        { st with
          g_cost := fun a b => if a = nx ∧ b = ny then some new_cost else st.g_cost a b
          came_from :=
            fun a b => if a = nx ∧ b = ny then some (current.x, current.y)
                       else st.came_from a b
          openList :=
            st.openList ++ [⟨nx, ny, new_cost, new_cost + heuristic nx ny gx gy⟩] }
      else st

/-- Predecessor-chain walk of `reconstruct_path`, with the accumulator already
in reversed (start-to-goal) order; the fuel bounds the chain length (the chain
is finite because g-costs strictly decrease along it). -/
def reconstructGo (cf : Nat → Nat → Option (Nat × Nat)) (sx sy : Nat) :
    Nat → Nat → Nat → List (Nat × Nat) → List (Nat × Nat)
  | 0, _, _, acc => acc
  | Nat.succ fuel, cx, cy, acc =>
    if cx = sx ∧ cy = sy then acc
    else
      match cf cx cy with
      | none => acc
      | some p => reconstructGo cf sx sy fuel p.1 p.2 ((cx, cy) :: acc)

/-- Path reconstruction, `pathfinding.rs` fn reconstruct_path. -/
def reconstruct_path (cf : Nat → Nat → Option (Nat × Nat)) (sx sy gx gy : Nat) :
    List (Nat × Nat) :=
  reconstructGo cf sx sy (MAP_WIDTH * MAP_HEIGHT + 1) gx gy []

/-- Fuel for the A* main loop: expansions are capped at 5001 and each expansion
pushes at most 8 nodes, so at most `1 + 8 * 5001` iterations ever pop a node. -/
def astarFuel : Nat := 100000

/-- The A* main loop (`while let Some(current) = open.pop()`), returning the
result together with the final value of `searched`. -/
def astarLoop (w : World) (sx sy gx gy : Nat) (allow_tree : Bool) :
    Nat → SearchState → Option (List (Nat × Nat)) × Nat
  | 0, st => (none, st.searched)
  | Nat.succ fuel, st =>
    match popMin st.openList with
    | none => (none, st.searched)
    | some (current, rest) =>
      if current.x = gx ∧ current.y = gy then
        (some (reconstruct_path st.came_from sx sy gx gy), st.searched)
      else if st.visited current.x current.y then
        astarLoop w sx sy gx gy allow_tree fuel { st with openList := rest }
      else
        let st1 : SearchState :=
          { st with
            openList := rest
            visited := fun a b => if a = current.x ∧ b = current.y then true else st.visited a b
            searched := st.searched + 1 }
        if max_search < st1.searched then (none, st1.searched)
        else astarLoop w sx sy gx gy allow_tree fuel
          (DIRS.foldl (expandOne w gx gy allow_tree current) st1)

/-- Initial search state of `find_path`. -/
def initState (sx sy gx gy : Nat) : SearchState :=
  { openList := [⟨sx, sy, 0, heuristic sx sy gx gy⟩]
    visited := fun _ _ => false
    came_from := fun _ _ => none
    g_cost := fun a b => if a = sx ∧ b = sy then some 0 else none
    searched := 0 }

/-- Pathfinding entry point together with its final expansion count. -/
def find_path_run (w : World) (sx sy gx gy : Nat) (allow_tree : Bool) :
    Option (List (Nat × Nat)) × Nat :=
  if sx = gx ∧ sy = gy then (some [], 0)
  else astarLoop w sx sy gx gy allow_tree astarFuel (initState sx sy gx gy)

/-- A* pathfinding, `pathfinding.rs` fn find_path. -/
def find_path (w : World) (sx sy gx gy : Nat) (allow_tree : Bool) :
    Option (List (Nat × Nat)) :=
  (find_path_run w sx sy gx gy allow_tree).1

/-! ## Random source and event log -/

/-- The shared pseudo-random source, embedded as an arbitrary stream of raw
naturals together with a cursor; every draw site consumes one raw value. -/
structure Rng where
  vals : Nat → Nat
  idx : Nat

/-- Draw one raw value. -/
def Rng.next (r : Rng) : Nat × Rng := (r.vals r.idx, ⟨r.vals, r.idx + 1⟩)

/-- Draw from an inclusive integer range, `rng.gen_range(lo..=hi)`. -/
def Rng.gen_range_int (r : Rng) (lo hi : Int) : Int × Rng :=
  let (v, r1) := r.next
  (lo + (v : Int) % (hi - lo + 1), r1)

/-- Draw from a half-open natural range, `rng.gen_range(lo..hi)`. -/
def Rng.gen_range_nat (r : Rng) (lo hi : Nat) : Nat × Rng :=
  let (v, r1) := r.next
  (lo + v % (hi - lo), r1)

/-- Draw a biased boolean, `rng.gen_bool(num/den)`. -/
def Rng.gen_bool (r : Rng) (num den : Nat) : Bool × Rng :=
  let (v, r1) := r.next
  (decide (v % den < num), r1)

/-- Append-only event log, `event.rs` (the display color tag is dropped:
rendering is outside the embedded core). -/
structure EventLog where
  events : List (Nat × String)
  max_events : Nat

/-- Fresh log, `EventLog::new`. -/
def EventLog.new : EventLog := ⟨[], 100⟩

/-- Append one entry, evicting the oldest on overflow, `EventLog::log`. -/
def EventLog.log (l : EventLog) (tick : Nat) (message : String) : EventLog :=
  let evs := l.events ++ [(tick, message)]
  { l with events := if l.max_events < evs.length then evs.drop 1 else evs }

/-! ## Animals (`animal.rs`) -/

/-- Animal species, `animal.rs` enum AnimalKind. -/
inductive AnimalKind
  | Deer
  | Boar
deriving DecidableEq, Repr

/-- Species display name, `AnimalKind::name`. -/
def AnimalKind.name : AnimalKind → String
  | .Deer => "Deer"
  | .Boar => "Boar"

/-- Animal state, `animal.rs` struct Animal. -/
structure Animal where
  kind : AnimalKind
  x : Nat
  y : Nat
  alive : Bool
deriving DecidableEq, Repr

/-- Fresh animal, `Animal::new`. -/
def Animal.new (kind : AnimalKind) (x y : Nat) : Animal :=
  { kind, x, y, alive := true }

/-- Per-tick animal behavior, `Animal::update`: deer flee from the first orc
found within Manhattan distance 5, otherwise both species wander randomly. -/
def Animal.update (a : Animal) (w : World) (orcs : List (Nat × Nat)) (r : Rng) :
    Animal × Rng :=
  if a.alive = false then (a, r)
  else
    match (if a.kind = AnimalKind.Deer then
        orcs.find? (fun o => decide (abs_diff a.x o.1 + abs_diff a.y o.2 ≤ 5))
      else none) with
    | some (ox, oy) =>
      let dx := Int.sign ((a.x : Int) - (ox : Int))
      let dy := Int.sign ((a.y : Int) - (oy : Int))
      let nx := clampCoord ((a.x : Int) + dx * 2) (MAP_WIDTH - 1)
      let ny := clampCoord ((a.y : Int) + dy * 2) (MAP_HEIGHT - 1)
      if w.is_walkable nx ny then ({ a with x := nx, y := ny }, r) else (a, r)
    | none =>
      let chance : Nat := match a.kind with
        | .Deer => 4
        | .Boar => 2
      let (b, r1) := r.gen_bool chance 10
      if b then
        let (dx, r2) := r1.gen_range_int (-1) 1
        let (dy, r3) := r2.gen_range_int (-1) 1
        let nx := clampCoord ((a.x : Int) + dx) (MAP_WIDTH - 1)
        let ny := clampCoord ((a.y : Int) + dy) (MAP_HEIGHT - 1)
        if w.is_walkable nx ny then ({ a with x := nx, y := ny }, r3) else (a, r3)
      else (a, r1)

/-- Kill an animal, `Animal::kill`: drop Food on Grass and log the hunt. -/
def Animal.kill (a : Animal) (w : World) (log : EventLog) (tick : Nat) :
    Animal × World × EventLog :=
  let a' := { a with alive := false }
  let w' := if w.get a.x a.y = Terrain.Grass then w.set a.x a.y Terrain.Food else w
  (a', w', log.log tick ("A " ++ a.kind.name ++ " was hunted!"))

/-! ## Orcs (`orc.rs`) -/

/-- Behavioral state, `orc.rs` enum Activity. -/
inductive Activity
  | Idle
  | GoingTo (x y : Nat) (reason : String)
  | Eating
  | Sleeping
  | Drinking
  | Hunting (target_idx : Nat)
  | CarryingMeat
deriving DecidableEq, Repr

/-- The fixed orc name pool, `orc.rs` ORC_NAMES. -/
def ORC_NAMES : List String :=
  ["Grok", "Thrak", "Murg", "Zug", "Brak", "Gor", "Krag", "Drog", "Narg", "Skul",
   "Gash", "Rok", "Brug", "Thar", "Grub", "Vak", "Snak", "Blud", "Kurz", "Mogz",
   "Thog", "Grim", "Uzk", "Ragz", "Lurk", "Bonk", "Drak", "Gurn", "Tusk", "Mok"]

/-- Unique-name draw, `orc.rs` fn pick_name: a random unused pool name, or a
random generated prefix-suffix name once the pool is exhausted. -/
def pick_name (r : Rng) (existing : List String) : String × Rng :=
  let available := ORC_NAMES.filter (fun n => ¬ existing.contains n)
  if available.isEmpty then
    let pres : List String := ["Gr", "Th", "Kr", "Br", "Dr", "Sk", "Zn", "Gl"]
    let sufs : List String := ["ok", "ag", "ug", "ak", "im", "oz", "ur", "ash"]
    let (i, r1) := r.gen_range_nat 0 pres.length
    let (j, r2) := r1.gen_range_nat 0 sufs.length
    (pres.getD i "" ++ sufs.getD j "", r2)
  else
    let (i, r1) := r.gen_range_nat 0 available.length
    (available.getD i "", r1)

/-- Orc agent state, `orc.rs` struct Orc; the f32 physiological scalars are
embedded as rationals. -/
structure Orc where
  name : String
  x : Nat
  y : Nat
  hunger : ℚ
  energy : ℚ
  thirst : ℚ
  health : ℚ
  alive : Bool
  death_tick : Option Nat
  activity : Activity
  idle_ticks : Nat
  carrying_food : Bool
  path : List (Nat × Nat)
  path_step : Nat

/-- Fresh orc, `Orc::new`. -/
def Orc.new (name : String) (x y : Nat) : Orc :=
  { name, x, y, hunger := 20, energy := 80, thirst := 10, health := 100,
    alive := true, death_tick := none, activity := Activity.Idle, idle_ticks := 0,
    carrying_food := false, path := [], path_step := 0 }

/-- Rejection-sampling placement of one clan member (the unbounded `loop` in
`Orc::spawn_clan`, given a fuel; exhausted fuel skips the orc). -/
def spawn_clan_place (w : World) (orcs : List Orc) (name : String) :
    Nat → Rng → Option Orc × Rng
  | 0, r => (none, r)
  | Nat.succ n, r =>
    let cx := w.campfire_pos.1
    let cy := w.campfire_pos.2
    let (d1, r1) := r.gen_range_nat 0 7
    let (d2, r2) := r1.gen_range_nat 0 7
    let x := cx - 3 + d1
    let y := cy - 3 + d2
    if (x < MAP_WIDTH ∧ y < MAP_HEIGHT ∧ w.is_walkable x y = true) ∧
        ¬ orcs.any (fun o => decide (o.x = x ∧ o.y = y)) then
      (some (Orc.new name x y), r2)
    else spawn_clan_place w orcs name n r2

/-- Retry fuel standing in for the unbounded placement loop. -/
def placeFuel : Nat := 1000000

/-- Clan spawner loop body, `Orc::spawn_clan`. -/
def spawn_clan_go (w : World) : Nat → List String → List Orc → Rng → List Orc × Rng
  | 0, _, orcs, r => (orcs, r)
  | Nat.succ n, used, orcs, r =>
    let (name, r1) := pick_name r used
    let (o?, r2) := spawn_clan_place w orcs name placeFuel r1
    match o? with
    | some o => spawn_clan_go w n (used ++ [name]) (orcs ++ [o]) r2
    | none => spawn_clan_go w n (used ++ [name]) orcs r2

/-- Clan spawn, `Orc::spawn_clan`. -/
def spawn_clan (count : Nat) (w : World) (r : Rng) : List Orc × Rng :=
  spawn_clan_go w count [] [] r

/-- Path planning, `Orc::plan_path`: store the A* result, or clear the path. -/
def Orc.plan_path (o : Orc) (tx ty : Nat) (w : World) (allow_tree : Bool) : Orc :=
  match find_path w o.x o.y tx ty allow_tree with
  | some p => { o with path := p, path_step := 0 }
  | none => { o with path := [], path_step := 0 }

/-- Path following, `Orc::follow_path`: step onto the next cached waypoint. -/
def Orc.follow_path (o : Orc) : Orc × Bool :=
  match o.path[o.path_step]? with
  | some c => ({ o with x := c.1, y := c.2, path_step := o.path_step + 1 }, true)
  | none => (o, false)

/-- Activity setter with path computation, `Orc::go_to`. -/
def Orc.go_to (o : Orc) (x y : Nat) (reason : String) (w : World) : Orc :=
  let t := w.get x y
  let o1 := o.plan_path x y w (t == Terrain.Tree || t == Terrain.Bush)
  { o1 with activity := Activity.GoingTo x y reason }

/-- Water adjacency test, `Orc::is_adjacent_to_water`. -/
def Orc.is_adjacent_to_water (o : Orc) (w : World) : Bool :=
  [((0 : Int), (1 : Int)), (0, -1), (1, 0), (-1, 0)].any (fun d =>
    let nx := clampCoord ((o.x : Int) + d.1) (MAP_WIDTH - 1)
    let ny := clampCoord ((o.y : Int) + d.2) (MAP_HEIGHT - 1)
    w.get nx ny == Terrain.Water)

/-- Candidate scan of the greedy fallback (the `for (cdx, cdy)` loop of
`Orc::move_toward_greedy`). -/
def tryCandidates (o : Orc) (w : World) : List (Int × Int) → Orc
  | [] => o
  | c :: cs =>
    if c.1 = 0 ∧ c.2 = 0 then tryCandidates o w cs
    else
      let nx := clampCoord ((o.x : Int) + c.1) (MAP_WIDTH - 1)
      let ny := clampCoord ((o.y : Int) + c.2) (MAP_HEIGHT - 1)
      if w.is_walkable nx ny || w.get nx ny == Terrain.Tree then
        { o with x := nx, y := ny }
      else tryCandidates o w cs

/-- Greedy one-step fallback movement, `Orc::move_toward_greedy`. -/
def Orc.move_toward_greedy (o : Orc) (tx ty : Nat) (w : World) (r : Rng) :
    Orc × Rng :=
  let dx : Int := ((tx : Int) - (o.x : Int)).sign
  let dy : Int := ((ty : Int) - (o.y : Int)).sign
  let (b, r1) := r.gen_bool 7 10
  let candidates := if b then [(dx, dy), (dx, 0), (0, dy)]
    else [(dx, 0), (0, dy), (dx, dy)]
  (tryCandidates o w candidates, r1)

/-- Rejection sampling of a rest spot near the campfire (20 attempts, campfire
tile as fallback), `Orc::find_spot_near`; the same loop is inlined in
`App::check_birth`. -/
def find_spot_near (cx cy : Nat) (w : World) : Nat → Rng → (Nat × Nat) × Rng
  | 0, r => ((cx, cy), r)
  | Nat.succ n, r =>
    let (d1, r1) := r.gen_range_int (-2) 2
    let (d2, r2) := r1.gen_range_int (-2) 2
    let x := clampCoord ((cx : Int) + d1) (MAP_WIDTH - 1)
    let y := clampCoord ((cy : Int) + d2) (MAP_HEIGHT - 1)
    if w.is_walkable x y then ((x, y), r2) else find_spot_near cx cy w n r2

/-- Food-target resolution, `Orc::find_food_target`: stockpile first, then the
nearest of Bush/Food/Tree, preferring a living animal that is close (&lt;15) or
the only option. -/
def Orc.find_food_target (o : Orc) (w : World) (animals : List Animal) :
    Option Activity :=
  let stockpileTarget : Option Activity :=
    if 0 < w.food_stockpile then
      w.meat_rack_pos.map (fun p => Activity.GoingTo p.1 p.2 "Going to stockpile")
    else none
  match stockpileTarget with
  | some t => some t
  | none =>
    let bush := w.find_nearest o.x o.y Terrain.Bush
    let food := w.find_nearest o.x o.y Terrain.Food
    let tree := w.find_nearest o.x o.y Terrain.Tree
    let best :=
      [bush, food, tree].foldl
        (fun best target? =>
          match target? with
          | none => best
          | some target =>
            let dist := abs_diff o.x target.1 + abs_diff o.y target.2
            match best with
            | none => some (target.1, target.2, dist)
            | some b => if dist < b.2.2 then some (target.1, target.2, dist) else best)
        (none : Option (Nat × Nat × Nat))
    let nearest_animal :=
      (animals.enum.filter (fun ia => ia.2.alive)).foldl
        (fun best ia =>
          match best with
          | none => some ia
          | some b =>
            if abs_diff o.x ia.2.x + abs_diff o.y ia.2.y <
                abs_diff o.x b.2.x + abs_diff o.y b.2.y then some ia
            else best)
        (none : Option (Nat × Animal))
    match nearest_animal with
    | some (idx, animal) =>
      let animal_dist := abs_diff o.x animal.x + abs_diff o.y animal.y
      if best.isNone ∨ animal_dist < 15 then some (Activity.Hunting idx)
      else best.map (fun b => Activity.GoingTo b.1 b.2.1 "Looking for food")
    | none => best.map (fun b => Activity.GoingTo b.1 b.2.1 "Looking for food")

/-- Activity setter with conditional path computation,
`Orc::set_activity_with_path`. -/
def Orc.set_activity_with_path (o : Orc) (activity : Activity) (w : World) : Orc :=
  let o1 :=
    match activity with
    | Activity.GoingTo tx ty _ =>
      let t := w.get tx ty
      o.plan_path tx ty w (t == Terrain.Tree || t == Terrain.Bush)
    | Activity.Hunting _ => { o with path := [], path_step := 0 }
    | _ => o
  { o1 with activity := activity }

/-- Arrival handling of a GoingTo destination, `Orc::arrive_at_destination`:
terrain-priority inspection of the current tile. -/
def Orc.arrive_at_destination (o : Orc) (w : World) (log : EventLog) (tick : Nat) :
    Orc × World × EventLog :=
  let terrain := w.get o.x o.y
  if terrain = Terrain.Bush then
    ({ o with activity := Activity.Eating }, w.deplete_bush o.x o.y tick,
      log.log tick (o.name ++ " found berries and starts eating"))
  else if terrain = Terrain.Food then
    ({ o with activity := Activity.Eating }, w.set o.x o.y Terrain.Grass,
      log.log tick (o.name ++ " found food and starts eating"))
  else if terrain = Terrain.Tree then
    ({ o with activity := Activity.Eating }, w,
      log.log tick (o.name ++ " forages from a tree"))
  else if terrain = Terrain.MeatRack ∧ 0 < w.food_stockpile then
    ({ o with activity := Activity.Eating },
      { w with food_stockpile := w.food_stockpile - 1 },
      log.log tick (o.name ++ " takes food from stockpile"))
  else if o.is_adjacent_to_water w then
    ({ o with activity := Activity.Drinking }, w,
      log.log tick (o.name ++ " drinks water"))
  else
    ({ o with activity := Activity.Sleeping }, w,
      log.log tick (o.name ++ " lies down to sleep by the fire"))

/-- Clamp on rationals, the `f32::clamp(lo, hi)` pattern. -/
def clampQ (v lo hi : ℚ) : ℚ := min (max v lo) hi

/-- Physiological needs and health update (the first half of `Orc::update`,
before the death check). -/
def Orc.updateNeeds (o : Orc) (is_night : Bool) : Orc :=
  let hunger_rate : ℚ := if is_night then 3/10 else 1/2
  let energy_drain : ℚ := if is_night then 4/5 else 2/5
  let thirst_rate : ℚ := 3/5
  let o1 := { o with
    hunger := clampQ (o.hunger + hunger_rate) 0 100
    thirst := clampQ (o.thirst + thirst_rate) 0 100 }
  let o2 :=
    match o1.activity with
    | Activity.Sleeping => { o1 with energy := clampQ (o1.energy + 3) 0 100 }
    | _ => { o1 with energy := clampQ (o1.energy - energy_drain) 0 100 }
  let health_delta : ℚ :=
    (if 95 ≤ o2.hunger then -2 else 0) +
    (if 95 ≤ o2.thirst then -3 else 0) +
    (if o2.energy ≤ 5 then -1 else 0) +
    (if o2.hunger < 50 ∧ o2.thirst < 50 ∧ 30 < o2.energy then 1/2 else 0)
  { o2 with health := clampQ (o2.health + health_delta) 0 100 }

/-- Combined mutable context returned by one orc update. -/
structure UpdRes where
  orc : Orc
  world : World
  animals : List Animal
  rng : Rng
  log : EventLog

/-- Idle decision procedure, `Orc::decide_action`: strict priority chain
critical health, thirst, hunger, sleep, carrying, wander; a stage that draws
no random value and finds no target falls through to the next stage. -/
def Orc.decide_action (o : Orc) (w : World) (animals : List Animal) (r : Rng)
    (log : EventLog) (tick : Nat) (_is_night : Bool) : Orc × Rng × EventLog :=
  let cx := w.campfire_pos.1
  let cy := w.campfire_pos.2
  -- Priority 1: health critical
  let s1 : Option (Orc × Rng × EventLog) :=
    if o.health < 20 then
      if o.thirst > o.hunger ∧ o.thirst > 100 - o.energy then
        match w.find_water_adjacent o.x o.y with
        | some p =>
          some (o.go_to p.1 p.2 "Desperate for water" w, r,
            log.log tick (o.name ++ " desperately needs water!"))
        | none => none
      else if o.hunger > 100 - o.energy then
        match o.find_food_target w animals with
        | some target =>
          some (o.set_activity_with_path target w, r,
            log.log tick (o.name ++ " desperately needs food!"))
        | none => none
      else
        let (p, r1) := find_spot_near cx cy w 20 r
        some (o.go_to p.1 p.2 "Desperate for sleep" w, r1,
          log.log tick (o.name ++ " desperately needs rest!"))
    else none
  -- Priority 2: thirst
  let s2 : Option (Orc × Rng × EventLog) :=
    if o.thirst > 60 then
      (w.find_water_adjacent o.x o.y).map (fun p =>
        (o.go_to p.1 p.2 "Going to drink" w, r,
          log.log tick (o.name ++ " is thirsty, heading to water")))
    else none
  -- Priority 3: hunger
  let s3 : Option (Orc × Rng × EventLog) :=
    if o.hunger > 70 then
      (o.find_food_target w animals).map (fun target =>
        (o.set_activity_with_path target w, r,
          log.log tick (o.name ++ " is hungry, looking for food")))
    else none
  -- Priority 4: sleep
  let s4 : Option (Orc × Rng × EventLog) :=
    if o.energy < 20 then
      let (p, r1) := find_spot_near cx cy w 20 r
      some (o.go_to p.1 p.2 "Going to sleep" w, r1,
        log.log tick (o.name ++ " is exhausted, heading to campfire"))
    else none
  -- Priority 5: carrying meat
  let s5 : Option (Orc × Rng × EventLog) :=
    if o.carrying_food then
      let o1 := { o with activity := Activity.CarryingMeat }
      let o2 :=
        match w.meat_rack_pos with
        | some p => o1.plan_path p.1 p.2 w false
        | none => o1
      some (o2, r, log)
    else none
  match s1 <|> s2 <|> s3 <|> s4 <|> s5 with
  | some res => res
  | none =>
    -- Priority 6: wander
    let o1 := { o with idle_ticks := o.idle_ticks + 1 }
    if 3 < o1.idle_ticks then
      let o2 := { o1 with idle_ticks := 0 }
      let max_dist : Int := 30
      let (d1, r1) := r.gen_range_int (-4) 4
      let nx := (min (max ((o.x : Int) + d1) ((cx : Int) - max_dist)) ((cx : Int) + max_dist)).toNat.min (MAP_WIDTH - 1)
      let (d2, r2) := r1.gen_range_int (-4) 4
      let ny := (min (max ((o.y : Int) + d2) ((cy : Int) - max_dist)) ((cy : Int) + max_dist)).toNat.min (MAP_HEIGHT - 1)
      if w.is_walkable nx ny then (o2.go_to nx ny "Wandering" w, r2, log)
      else (o2, r2, log)
    else (o1, r, log)

/-- Per-tick orc update, `Orc::update`: needs update, death check, then the
per-activity behavior. -/
def Orc.update (o : Orc) (w : World) (animals : List Animal) (r : Rng)
    (log : EventLog) (tick : Nat) (is_night : Bool) : UpdRes :=
  if o.alive = false then ⟨o, w, animals, r, log⟩
  else
    let o1 := o.updateNeeds is_night
    if o1.health ≤ 0 then
      ⟨{ o1 with alive := false, death_tick := some tick }, w, animals, r,
        log.log tick (o1.name ++ " has died!")⟩
    else
      match o1.activity with
      | Activity.Sleeping =>
        if 90 ≤ o1.energy then
          ⟨{ o1 with activity := Activity.Idle }, w, animals, r,
            log.log tick (o1.name ++ " woke up, feeling rested")⟩
        else ⟨o1, w, animals, r, log⟩
      | Activity.Eating =>
        let o2 := { o1 with hunger := clampQ (o1.hunger - 15) 0 100 }
        if o2.hunger ≤ 10 then
          ⟨{ o2 with activity := Activity.Idle }, w, animals, r,
            log.log tick (o2.name ++ " finished eating")⟩
        else ⟨o2, w, animals, r, log⟩
      | Activity.Drinking =>
        let o2 := { o1 with thirst := clampQ (o1.thirst - 20) 0 100 }
        if o2.thirst ≤ 5 then
          ⟨{ o2 with activity := Activity.Idle }, w, animals, r,
            log.log tick (o2.name ++ " finished drinking")⟩
        else ⟨o2, w, animals, r, log⟩
      | Activity.Hunting target_idx =>
        match animals[target_idx]? with
        | some a =>
          if a.alive then
            let ax := a.x
            let ay := a.y
            let dist := abs_diff o1.x ax + abs_diff o1.y ay
            if dist ≤ 1 then
              let (a', w1, log1) := a.kill w log tick
              let animals1 := animals.set target_idx a'
              let log2 := log1.log tick (o1.name ++ " caught a " ++ a'.kind.name ++ "!")
              if 50 < o1.hunger then
                ⟨{ o1 with activity := Activity.Eating }, w1, animals1, r, log2⟩
              else
                let o2 := { o1 with carrying_food := true,
                                    activity := Activity.CarryingMeat }
                let w2 := if w1.get ax ay = Terrain.Food then w1.set ax ay Terrain.Grass
                  else w1
                let o3 :=
                  match w2.meat_rack_pos with
                  | some p => o2.plan_path p.1 p.2 w2 false
                  | none => o2
                ⟨o3, w2, animals1, r, log2⟩
            else
              let o2 := if o1.path = [] ∨ o1.path.length ≤ o1.path_step then
                  o1.plan_path ax ay w false
                else o1
              let fp := o2.follow_path
              if fp.2 then ⟨fp.1, w, animals, r, log⟩
              else
                let (o4, r1) := fp.1.move_toward_greedy ax ay w r
                ⟨o4, w, animals, r1, log⟩
          else ⟨{ o1 with activity := Activity.Idle }, w, animals, r, log⟩
        | none => ⟨{ o1 with activity := Activity.Idle }, w, animals, r, log⟩
      | Activity.CarryingMeat =>
        match w.meat_rack_pos with
        | some p =>
          let dist := abs_diff o1.x p.1 + abs_diff o1.y p.2
          if dist ≤ 1 then
            let w1 := { w with food_stockpile := w.food_stockpile + 1 }
            ⟨{ o1 with carrying_food := false, activity := Activity.Idle }, w1,
              animals, r, log.log tick (o1.name ++ " stored meat")⟩
          else
            let fp := o1.follow_path
            if fp.2 then ⟨fp.1, w, animals, r, log⟩
            else
              let (o3, r1) := fp.1.move_toward_greedy p.1 p.2 w r
              ⟨o3, w, animals, r1, log⟩
        | none =>
          ⟨{ o1 with carrying_food := false, activity := Activity.Idle }, w,
            animals, r, log⟩
      | Activity.GoingTo tx ty _ =>
        if o1.x = tx ∧ o1.y = ty then
          let (o2, w1, log1) := o1.arrive_at_destination w log tick
          ⟨o2, w1, animals, r, log1⟩
        else
          let fp := o1.follow_path
          if fp.2 then ⟨fp.1, w, animals, r, log⟩
          else
            let (o3, r1) := fp.1.move_toward_greedy tx ty w r
            ⟨o3, w, animals, r1, log⟩
      | Activity.Idle =>
        let (o2, r1, log1) := o1.decide_action w animals r log tick is_night
        ⟨o2, w, animals, r1, log1⟩

/-! ## Orchestrator birth system (`app.rs`) -/

/-- Clan size cap, `app.rs` MAX_CLAN_SIZE. -/
def MAX_CLAN_SIZE : Nat := 15

/-- The orchestrator state relevant to the birth system. -/
structure AppState where
  world : World
  orcs : List Orc
  rng : Rng
  event_log : EventLog

/-- Birth check, `App::check_birth`: population window, average hunger and
energy gates, stockpile consumption, name and spawn-tile draw, push of the
newborn. -/
def check_birth (st : AppState) (tick : Nat) : AppState :=
  let living := st.orcs.filter (fun o => o.alive)
  let count := living.length
  if count < 2 ∨ MAX_CLAN_SIZE ≤ count then st
  else
    let avg_hunger : ℚ := (living.map (fun o => o.hunger)).sum / (count : ℚ)
    let avg_energy : ℚ := (living.map (fun o => o.energy)).sum / (count : ℚ)
    if avg_hunger < 40 ∧ 40 < avg_energy ∧ 0 < st.world.food_stockpile then
      let w1 := { st.world with food_stockpile := st.world.food_stockpile - 1 }
      let existing := st.orcs.map (fun o => o.name)
      let (name, r1) := pick_name st.rng existing
      let (p, r2) := find_spot_near w1.campfire_pos.1 w1.campfire_pos.2 w1 20 r1
      let log1 := st.event_log.log tick (name ++ " is born into the clan!")
      { world := w1, orcs := st.orcs ++ [Orc.new name p.1 p.2], rng := r2,
        event_log := log1 }
    else st

/-- The birth-system trigger inside `App::tick`: the check runs only on every
300th tick. -/
def birth_step (st : AppState) (tick : Nat) : AppState :=
  if tick % 300 = 0 then check_birth st tick else st

/-! ## Specification-side definitions used by the theorems -/

/-- One neighbor cell reached by an offset, with the same bounds guard as the
neighbor loop of `find_path`. -/
def cellOf (c : Nat × Nat) (d : Int × Int) : Option (Nat × Nat) :=
  let nxi : Int := (c.1 : Int) + d.1
  let nyi : Int := (c.2 : Int) + d.2
  if nxi < 0 ∨ nyi < 0 ∨ (MAP_WIDTH : Int) ≤ nxi ∨ (MAP_HEIGHT : Int) ≤ nyi then none
  else some (nxi.toNat, nyi.toNat)

/-- All in-bounds 8-connected neighbors of a cell. -/
def neighbors (c : Nat × Nat) : List (Nat × Nat) := DIRS.filterMap (cellOf c)

/-- Weighted step cost between two distinct adjacent cells: 14 when both
coordinates change (diagonal), otherwise 10. -/
def stepCost (a b : Nat × Nat) : Nat := if a.1 ≠ b.1 ∧ a.2 ≠ b.2 then 14 else 10

/-- Passability of a cell for the search: the goal tile, a walkable tile, or a
Tree tile when trees are allowed. -/
def passableCell (w : World) (allow_tree : Bool) (gx gy : Nat) (c : Nat × Nat) : Prop :=
  (c.1 = gx ∧ c.2 = gy) ∨ w.is_walkable c.1 c.2 = true ∨
    (allow_tree = true ∧ w.get c.1 c.2 = Terrain.Tree)

/-- One legal move of an 8-connected path: onto an in-bounds neighbor that is
passable under the search's rule. -/
def goodStep (w : World) (allow_tree : Bool) (gx gy : Nat) (a b : Nat × Nat) : Prop :=
  b ∈ neighbors a ∧ passableCell w allow_tree gx gy b

/-- An 8-connected path from `c` through the waypoint list to `e`, every
visited cell being in bounds and passable. -/
def chain (w : World) (allow_tree : Bool) (gx gy : Nat) :
    (Nat × Nat) → List (Nat × Nat) → (Nat × Nat) → Prop
  | c, [], e => c = e
  | c, d :: p, e => goodStep w allow_tree gx gy c d ∧ chain w allow_tree gx gy d p e

/-- Total weighted cost of a waypoint list starting from `c`. -/
def pathCost : (Nat × Nat) → List (Nat × Nat) → Nat
  | _, [] => 0
  | c, d :: p => stepCost c d + pathCost d p

/-- The claim's position predicate: the tile is walkable or a Tree. -/
def posOk (w : World) (c : Nat × Nat) : Prop :=
  w.is_walkable c.1 c.2 = true ∨ w.get c.1 c.2 = Terrain.Tree

/-- Position invariant of one orc: it stands on a walkable-or-Tree tile and
every cached waypoint is walkable-or-Tree. -/
def OrcInv (w : World) (o : Orc) : Prop :=
  posOk w (o.x, o.y) ∧ ∀ c ∈ o.path, posOk w c

/-- Position invariant of one animal: it stands on a walkable tile. -/
def AnimalInv (w : World) (a : Animal) : Prop := w.is_walkable a.x a.y = true

/-- The four physiological scalars lie in [0, 100]. -/
def needsInRange (o : Orc) : Prop :=
  0 ≤ o.hunger ∧ o.hunger ≤ 100 ∧ 0 ≤ o.thirst ∧ o.thirst ≤ 100 ∧
  0 ≤ o.energy ∧ o.energy ≤ 100 ∧ 0 ≤ o.health ∧ o.health ≤ 100

/-- The per-call environment of one `Orc::update` invocation. -/
structure StepInput where
  world : World
  animals : List Animal
  rng : Rng
  log : EventLog
  tick : Nat
  is_night : Bool

/-- Iterated orc updates over an arbitrary sequence of environments. -/
def runUpdates (o : Orc) : List StepInput → Orc
  | [] => o
  | s :: ss => runUpdates (o.update s.world s.animals s.rng s.log s.tick s.is_night).orc ss

/-- An all-grass world used by concrete witnesses. -/
def grassWorld : World :=
  { tiles := fun _ _ => Terrain.Grass, campfire_pos := (150, 75),
    food_stockpile := 3, regrowth_timers := [] }

/-- A world with a single water tile at (10, 10), used by concrete witnesses. -/
def waterWorld : World :=
  { tiles := fun x y => if x = 10 ∧ y = 10 then Terrain.Water else Terrain.Grass,
    campfire_pos := (150, 75), food_stockpile := 3, regrowth_timers := [] }

/-! ## Pathfinding invariants and reachability (used by C1 and C2) -/

/-- Invariant for C2: every open node is the initial start node or has a
predecessor recorded, and predecessors are never erased. -/
def cfInv (sx sy : Nat) (st : SearchState) : Prop :=
  ∀ e ∈ st.openList, (e.x = sx ∧ e.y = sy) ∨ (st.came_from e.x e.y).isSome = true


/-! ## Reachability and the A* loop invariant -/

/-- Some valid search path from the start reaches cell `c` at cost `n`. -/
def ReachN (w : World) (at_ : Bool) (sx sy gx gy : Nat) (c : Nat × Nat) (n : Nat) : Prop :=
  ∃ p, chain w at_ gx gy (sx, sy) p c ∧ pathCost (sx, sy) p = n

/-- The cost `n` reaches `c` and no valid path does better. -/
def MinReach (w : World) (at_ : Bool) (sx sy gx gy : Nat) (c : Nat × Nat) (n : Nat) : Prop :=
  ReachN w at_ sx sy gx gy c n ∧ ∀ m, ReachN w at_ sx sy gx gy c m → n ≤ m

/-- The A* loop invariant: a Dijkstra-style characterization of the g-costs,
the open list, the visited set and the predecessor map. -/
structure AInv (w : World) (at_ : Bool) (sx sy gx gy : Nat) (st : SearchState) : Prop where
  g_start : st.g_cost sx sy = some 0
  g_reach : ∀ x y c, st.g_cost x y = some c → ReachN w at_ sx sy gx gy (x, y) c
  entries : ∀ e ∈ st.openList, ∃ c, st.g_cost e.x e.y = some c ∧ c ≤ e.cost ∧
    e.priority = e.cost + heuristic e.x e.y gx gy
  witness : ∀ x y c, st.visited x y = false → st.g_cost x y = some c →
    ∃ e ∈ st.openList, e.x = x ∧ e.y = y ∧ e.cost = c
  vis_opt : ∀ x y, st.visited x y = true → ∃ c, st.g_cost x y = some c ∧
    MinReach w at_ sx sy gx gy (x, y) c
  vis_relax : ∀ x y, st.visited x y = true → ∀ v ∈ neighbors (x, y),
    passableCell w at_ gx gy v → st.visited v.1 v.2 = false →
    ∃ cu cv, st.g_cost x y = some cu ∧ st.g_cost v.1 v.2 = some cv ∧
      cv ≤ cu + stepCost (x, y) v
  cf_chain : ∀ x y u, st.came_from x y = some u → st.visited u.1 u.2 = true ∧
    (x, y) ∈ neighbors u ∧ passableCell w at_ gx gy (x, y) ∧
    ∃ cu cv, st.g_cost u.1 u.2 = some cu ∧ st.g_cost x y = some cv ∧
      cv = cu + stepCost u (x, y)
  g_cf : ∀ x y c, st.g_cost x y = some c → (x = sx ∧ y = sy) ∨
    (st.came_from x y).isSome = true
  goal_unvis : st.visited gx gy = false
  searched_le : st.searched ≤ max_search
  g_bound : ∀ x y c, st.g_cost x y = some c → c ≤ 14 * st.searched


/-- Diagonal-or-orthogonal move cost of an offset. -/
def mcost (d : Int × Int) : Nat := if d.1 ≠ 0 ∧ d.2 ≠ 0 then 14 else 10


/-! ## Mid-expansion invariant -/

/-- The loop invariant during neighbor expansion of the node `cur`: all of
`AInv` except that the relaxation property is not yet claimed for `cur`, plus
the established facts about `cur` itself. -/
structure MidInv (w : World) (at_ : Bool) (sx sy gx gy : Nat) (cur : Node)
    (st : SearchState) : Prop where
  g_start : st.g_cost sx sy = some 0
  g_reach : ∀ x y c, st.g_cost x y = some c → ReachN w at_ sx sy gx gy (x, y) c
  entries : ∀ e ∈ st.openList, ∃ c, st.g_cost e.x e.y = some c ∧ c ≤ e.cost ∧
    e.priority = e.cost + heuristic e.x e.y gx gy
  witness : ∀ x y c, st.visited x y = false → st.g_cost x y = some c →
    ∃ e ∈ st.openList, e.x = x ∧ e.y = y ∧ e.cost = c
  vis_opt : ∀ x y, st.visited x y = true → ∃ c, st.g_cost x y = some c ∧
    MinReach w at_ sx sy gx gy (x, y) c
  vis_relax : ∀ x y, st.visited x y = true → ¬ (x = cur.x ∧ y = cur.y) →
    ∀ v ∈ neighbors (x, y),
    passableCell w at_ gx gy v → st.visited v.1 v.2 = false →
    ∃ cu cv, st.g_cost x y = some cu ∧ st.g_cost v.1 v.2 = some cv ∧
      cv ≤ cu + stepCost (x, y) v
  cf_chain : ∀ x y u, st.came_from x y = some u → st.visited u.1 u.2 = true ∧
    (x, y) ∈ neighbors u ∧ passableCell w at_ gx gy (x, y) ∧
    ∃ cu cv, st.g_cost u.1 u.2 = some cu ∧ st.g_cost x y = some cv ∧
      cv = cu + stepCost u (x, y)
  g_cf : ∀ x y c, st.g_cost x y = some c → (x = sx ∧ y = sy) ∨
    (st.came_from x y).isSome = true
  goal_unvis : st.visited gx gy = false
  searched_le : st.searched ≤ max_search
  g_bound : ∀ x y c, st.g_cost x y = some c → c ≤ 14 * st.searched
  cur_vis : st.visited cur.x cur.y = true
  cur_g : st.g_cost cur.x cur.y = some cur.cost
  cur_min : MinReach w at_ sx sy gx gy (cur.x, cur.y) cur.cost
  cur_bound : cur.cost + 14 ≤ 14 * st.searched

/-- The per-offset relaxation obligation established by the expansion fold. -/
def propD (w : World) (at_ : Bool) (gx gy : Nat) (cur : Node) (st : SearchState)
    (d : Int × Int) : Prop :=
  ∀ vx vy, cellOf (cur.x, cur.y) d = some (vx, vy) →
    passableCell w at_ gx gy (vx, vy) → st.visited vx vy = false →
    ∃ cv, st.g_cost vx vy = some cv ∧
      cv ≤ cur.cost + stepCost (cur.x, cur.y) (vx, vy)


/-- World evolution that never invalidates a standing position: every
walkable-or-Tree cell stays walkable-or-Tree. -/
def walkKeep (w w' : World) : Prop := ∀ c, posOk w c → posOk w' c

/-! ## Basic tile-grid lemmas -/

theorem World.get_set_same (w : World) (x y : Nat) (t : Terrain) :
    (w.set x y t).get x y = t := by
  simp [World.set, World.get]

theorem World.get_set_ne (w : World) {u v x y : Nat} (t : Terrain)
    (h : ¬ (u = x ∧ v = y)) : (w.set x y t).get u v = w.get u v := by
  simp [World.set, World.get, h]

theorem World.set_timers (w : World) (x y : Nat) (t : Terrain) :
    (w.set x y t).regrowth_timers = w.regrowth_timers := rfl

/-- The regrowth fold never touches the timer list. -/
theorem regrow_fold_timers (l : List (Nat × Nat × Nat)) (wa : World) :
    (l.foldl
      (fun wa t =>
        if wa.get t.1 t.2.1 = Terrain.DepletedBush then wa.set t.1 t.2.1 Terrain.Bush
        else wa)
      wa).regrowth_timers = wa.regrowth_timers := by
  induction l generalizing wa with
  | nil => rfl
  | cons hd tl ih =>
    simp only [List.foldl_cons]
    rw [ih]
    split <;> rfl

/-- A tile already holding Bush survives the regrowth fold. -/
theorem regrow_fold_bush (x y : Nat) (l : List (Nat × Nat × Nat)) (wa : World)
    (h : wa.get x y = Terrain.Bush) :
    (l.foldl
      (fun wa t =>
        if wa.get t.1 t.2.1 = Terrain.DepletedBush then wa.set t.1 t.2.1 Terrain.Bush
        else wa)
      wa).get x y = Terrain.Bush := by
  induction l generalizing wa with
  | nil => exact h
  | cons hd tl ih =>
    simp only [List.foldl_cons]
    apply ih
    by_cases hc : hd.1 = x ∧ hd.2.1 = y
    · split
      · rw [hc.1, hc.2, World.get_set_same]
      · exact h
    · split
      · rw [World.get_set_ne _ _ (by tauto)]
        exact h
      · exact h

/-- A DepletedBush tile whose coordinates occur in the regrowth fold list is
restored to Bush. -/
theorem regrow_fold_restores (x y d : Nat) (l : List (Nat × Nat × Nat)) (wa : World)
    (hmem : (x, y, d) ∈ l) (h : wa.get x y = Terrain.DepletedBush) :
    (l.foldl
      (fun wa t =>
        if wa.get t.1 t.2.1 = Terrain.DepletedBush then wa.set t.1 t.2.1 Terrain.Bush
        else wa)
      wa).get x y = Terrain.Bush := by
  induction l generalizing wa with
  | nil => simp at hmem
  | cons hd tl ih =>
    simp only [List.foldl_cons]
    by_cases hc : hd.1 = x ∧ hd.2.1 = y
    · have hset : (if wa.get hd.1 hd.2.1 = Terrain.DepletedBush then
          wa.set hd.1 hd.2.1 Terrain.Bush else wa).get x y = Terrain.Bush := by
        rw [hc.1, hc.2] at *
        simp [h, World.get_set_same]
      exact regrow_fold_bush x y tl _ hset
    · rcases List.mem_cons.1 hmem with heq | hmem'
      · exact absurd (by rw [← heq]; exact ⟨rfl, rfl⟩) hc
      · apply ih _ hmem'
        split
        · rw [World.get_set_ne _ _ (by tauto)]
          exact h
        · exact h

/-- A tile whose coordinates occur nowhere in the fold list is untouched. -/
theorem regrow_fold_skips (x y : Nat) (l : List (Nat × Nat × Nat)) (wa : World)
    (hmem : ∀ d, (x, y, d) ∉ l) :
    (l.foldl
      (fun wa t =>
        if wa.get t.1 t.2.1 = Terrain.DepletedBush then wa.set t.1 t.2.1 Terrain.Bush
        else wa)
      wa).get x y = wa.get x y := by
  induction l generalizing wa with
  | nil => rfl
  | cons hd tl ih =>
    simp only [List.foldl_cons]
    have hne : ¬ (hd.1 = x ∧ hd.2.1 = y) := by
      rintro ⟨h1, h2⟩
      exact hmem hd.2.2 (by
        have : hd = (x, y, hd.2.2) := by
          cases hd with
          | mk a bc =>
            cases bc with
            | mk b c => simp_all
        rw [← this]
        exact List.mem_cons_self _ _)
    rw [ih _ (fun d hd' => hmem d (List.mem_cons_of_mem _ hd'))]
    split
    · rw [World.get_set_ne _ _ (by tauto)]
    · rfl

/-! ## C4: bush regrowth round trip -/

/-- C4: depleting a Bush tile at tick `t` makes it DepletedBush and schedules a
timer for `t + 80`; a regrowth sweep at any tick up to `t + 79` leaves the tile
DepletedBush; a sweep at `t + 80` restores Bush in any world state in which the
tile still holds DepletedBush and the timer is still pending; and every
processed timer is removed by a sweep regardless of the tile's state. -/
theorem bush_regrowth_round_trip (w : World) (x y t : Nat)
    (hbush : w.get x y = Terrain.Bush)
    (hnotimer : ∀ d, (x, y, d) ∉ w.regrowth_timers) :
    ((w.deplete_bush x y t).get x y = Terrain.DepletedBush ∧
      (x, y, t + 80) ∈ (w.deplete_bush x y t).regrowth_timers) ∧
    (∀ t', t' ≤ t + 79 →
      ((w.deplete_bush x y t).tick_regrowth t').get x y = Terrain.DepletedBush) ∧
    (∀ w2 : World, w2.get x y = Terrain.DepletedBush →
      (x, y, t + 80) ∈ w2.regrowth_timers →
      (w2.tick_regrowth (t + 80)).get x y = Terrain.Bush) ∧
    (∀ (w2 : World) (t'' xx yy dd : Nat), dd ≤ t'' →
      (xx, yy, dd) ∉ (w2.tick_regrowth t'').regrowth_timers) := by
  have hget : w.tiles x y = Terrain.Bush := hbush
  constructor
  · constructor
    · simp only [World.deplete_bush, hget, if_pos]
      exact World.get_set_same _ _ _ _
    · simp [World.deplete_bush, hget, World.set]
  refine ⟨?_, ?_, ?_⟩
  · intro t' ht'
    have hdep : (w.deplete_bush x y t).get x y = Terrain.DepletedBush := by
      simp only [World.deplete_bush, hget, if_pos]
      exact World.get_set_same _ _ _ _
    have htimers : (w.deplete_bush x y t).regrowth_timers =
        w.regrowth_timers ++ [(x, y, t + 80)] := by
      simp [World.deplete_bush, hget, World.set]
    unfold World.tick_regrowth
    simp only
    rw [regrow_fold_skips]
    · exact hdep
    · intro d hd
      rw [htimers] at hd
      have := List.mem_filter.1 hd
      rcases List.mem_append.1 this.1 with h1 | h1
      · exact hnotimer d h1
      · simp only [List.mem_singleton, Prod.mk.injEq] at h1
        have hdt : d = t + 80 := h1.2.2
        have hle : d ≤ t' := by
          have := this.2
          simpa using this
        omega
  · intro w2 hdep hmem
    unfold World.tick_regrowth
    simp only
    apply regrow_fold_restores x y (t + 80)
    · apply List.mem_filter.2
      exact ⟨hmem, by simp⟩
    · exact hdep
  · intro w2 t'' xx yy dd hle hmem
    simp only [World.tick_regrowth] at hmem
    rw [regrow_fold_timers] at hmem
    have := List.mem_filter.1 hmem
    have h2 := this.2
    simp only [decide_eq_true_eq] at h2
    omega

/-- C4 witness: a concrete Bush at (3, 4) depleted at tick 5. -/
theorem bush_regrowth_round_trip_witness :
    let wB : World :=
      { tiles := fun a b => if a = 3 ∧ b = 4 then Terrain.Bush else Terrain.Grass,
        campfire_pos := (150, 75), food_stockpile := 0, regrowth_timers := [] }
    ((wB.deplete_bush 3 4 5).get 3 4 = Terrain.DepletedBush ∧
      (3, 4, 5 + 80) ∈ (wB.deplete_bush 3 4 5).regrowth_timers) ∧
    (∀ t', t' ≤ 5 + 79 →
      ((wB.deplete_bush 3 4 5).tick_regrowth t').get 3 4 = Terrain.DepletedBush) ∧
    (∀ w2 : World, w2.get 3 4 = Terrain.DepletedBush →
      (3, 4, 5 + 80) ∈ w2.regrowth_timers →
      (w2.tick_regrowth (5 + 80)).get 3 4 = Terrain.Bush) ∧
    (∀ (w2 : World) (t'' xx yy dd : Nat), dd ≤ t'' →
      (xx, yy, dd) ∉ (w2.tick_regrowth t'').regrowth_timers) :=
  bush_regrowth_round_trip _ 3 4 5 (by decide) (by simp)

/-! ## Orc update scalar lemmas (C5, C6, C9) -/

theorem clampQ_nonneg (v : ℚ) : 0 ≤ clampQ v 0 100 :=
  le_min (le_max_right _ _) (by norm_num)

theorem clampQ_le (v : ℚ) : clampQ v 0 100 ≤ 100 := min_le_right _ _

theorem updateNeeds_range (o : Orc) (n : Bool) : needsInRange (o.updateNeeds n) := by
  obtain ⟨nm, x, y, hg, en, th, hl, al, dt, act, it, cf, pa, ps⟩ := o
  cases act <;>
    exact ⟨clampQ_nonneg _, clampQ_le _, clampQ_nonneg _, clampQ_le _,
      clampQ_nonneg _, clampQ_le _, clampQ_nonneg _, clampQ_le _⟩

def scalarsEq (o o' : Orc) : Prop :=
  o'.hunger = o.hunger ∧ o'.thirst = o.thirst ∧ o'.energy = o.energy ∧ o'.health = o.health

theorem scalarsEq_plan_path (o : Orc) (tx ty : Nat) (w : World) (b : Bool) :
    scalarsEq o (o.plan_path tx ty w b) := by
  unfold Orc.plan_path
  cases find_path w o.x o.y tx ty b <;> exact ⟨rfl, rfl, rfl, rfl⟩

theorem scalarsEq_follow_path (o : Orc) : scalarsEq o o.follow_path.1 := by
  unfold Orc.follow_path
  cases o.path[o.path_step]? <;> exact ⟨rfl, rfl, rfl, rfl⟩

theorem scalarsEq_go_to (o : Orc) (x y : Nat) (s : String) (w : World) :
    scalarsEq o (o.go_to x y s w) := by
  unfold Orc.go_to
  have := scalarsEq_plan_path o x y w ((w.get x y == Terrain.Tree) || (w.get x y == Terrain.Bush))
  exact this

theorem orElse_some {α : Type} {a b : Option α} {v : α} (h : (a <|> b) = some v) :
    a = some v ∨ b = some v := by
  cases a <;> simp_all

theorem scalarsEq_tryCandidates (o : Orc) (w : World) (l : List (Int × Int)) :
    scalarsEq o (tryCandidates o w l) := by
  induction l with
  | nil => exact ⟨rfl, rfl, rfl, rfl⟩
  | cons c cs ih =>
    unfold tryCandidates
    split
    · exact ih
    · simp only []
      split
      · exact ⟨rfl, rfl, rfl, rfl⟩
      · exact ih

theorem scalarsEq_greedy (o : Orc) (tx ty : Nat) (w : World) (r : Rng) :
    scalarsEq o (o.move_toward_greedy tx ty w r).1 := by
  unfold Orc.move_toward_greedy
  exact scalarsEq_tryCandidates o w _

theorem scalarsEq_set_activity (o : Orc) (a : Activity) (w : World) :
    scalarsEq o (o.set_activity_with_path a w) := by
  unfold Orc.set_activity_with_path
  cases a <;> first
    | exact ⟨rfl, rfl, rfl, rfl⟩
    | exact scalarsEq_plan_path o _ _ w _

theorem scalarsEq_arrive (o : Orc) (w : World) (log : EventLog) (tick : Nat) :
    scalarsEq o (o.arrive_at_destination w log tick).1 := by
  unfold Orc.arrive_at_destination
  simp only []
  split_ifs <;> exact ⟨rfl, rfl, rfl, rfl⟩

theorem scalarsEq_decide_action (o : Orc) (w : World) (animals : List Animal)
    (r : Rng) (log : EventLog) (tick : Nat) (n : Bool) :
    scalarsEq o (o.decide_action w animals r log tick n).1 := by
  unfold Orc.decide_action
  simp only []
  split
  case _ res heq =>
    rcases orElse_some heq with h1 | h
    · split at h1
      · split at h1
        · split at h1
          · cases h1
            exact scalarsEq_go_to _ _ _ _ _
          · simp at h1
        · split at h1
          · split at h1
            · cases h1
              exact scalarsEq_set_activity _ _ _
            · simp at h1
          · cases h1
            exact scalarsEq_go_to _ _ _ _ _
      · simp at h1
    rcases orElse_some h with h2 | h
    · split at h2
      · rcases Option.map_eq_some'.1 h2 with ⟨p, hp, hres⟩
        cases hres
        exact scalarsEq_go_to _ _ _ _ _
      · simp at h2
    rcases orElse_some h with h3 | h
    · split at h3
      · rcases Option.map_eq_some'.1 h3 with ⟨p, hp, hres⟩
        cases hres
        exact scalarsEq_set_activity _ _ _
      · simp at h3
    rcases orElse_some h with h4 | h5
    · split at h4
      · cases h4
        exact scalarsEq_go_to _ _ _ _ _
      · simp at h4
    · split at h5
      · split at h5
        · cases h5
          exact scalarsEq_plan_path _ _ _ _ _
        · cases h5
          exact ⟨rfl, rfl, rfl, rfl⟩
      · simp at h5
  case _ heq =>
    split
    · split
      · exact scalarsEq_go_to _ _ _ _ _
      · exact ⟨rfl, rfl, rfl, rfl⟩
    · exact ⟨rfl, rfl, rfl, rfl⟩

theorem needsInRange_of_scalarsEq {o o' : Orc} (hs : scalarsEq o o')
    (h : needsInRange o) : needsInRange o' := by
  obtain ⟨h1, h2, h3, h4⟩ := hs
  unfold needsInRange at *
  rw [h1, h2, h3, h4]
  exact h

theorem update_preserves_needsInRange (o : Orc) (w : World) (animals : List Animal)
    (r : Rng) (log : EventLog) (tick : Nat) (night : Bool) (h : needsInRange o) :
    needsInRange (o.update w animals r log tick night).orc := by
  unfold Orc.update
  split
  · exact h
  · simp only []
    have ho1 := updateNeeds_range o night
    split
    · exact ho1
    · split
      -- Sleeping
      · split
        · exact ho1
        · exact ho1
      -- Eating
      · have hE : needsInRange { o.updateNeeds night with
            hunger := clampQ ((o.updateNeeds night).hunger - 15) 0 100 } :=
          ⟨clampQ_nonneg _, clampQ_le _, ho1.2.2.1, ho1.2.2.2.1, ho1.2.2.2.2.1,
            ho1.2.2.2.2.2.1, ho1.2.2.2.2.2.2.1, ho1.2.2.2.2.2.2.2⟩
        split
        · exact hE
        · exact hE
      -- Drinking
      · have hD : needsInRange { o.updateNeeds night with
            thirst := clampQ ((o.updateNeeds night).thirst - 20) 0 100 } :=
          ⟨ho1.1, ho1.2.1, clampQ_nonneg _, clampQ_le _, ho1.2.2.2.2.1,
            ho1.2.2.2.2.2.1, ho1.2.2.2.2.2.2.1, ho1.2.2.2.2.2.2.2⟩
        split
        · exact hD
        · exact hD
      -- Hunting
      · split
        · split
          · split
            · split
              · exact ho1
              · split
                · exact needsInRange_of_scalarsEq (scalarsEq_plan_path _ _ _ _ _) ho1
                · exact ho1
            · split
              · split
                · exact needsInRange_of_scalarsEq (scalarsEq_follow_path _)
                    (needsInRange_of_scalarsEq (scalarsEq_plan_path _ _ _ _ _) ho1)
                · exact needsInRange_of_scalarsEq (scalarsEq_greedy _ _ _ _ _)
                    (needsInRange_of_scalarsEq (scalarsEq_follow_path _)
                      (needsInRange_of_scalarsEq (scalarsEq_plan_path _ _ _ _ _) ho1))
              · split
                · exact needsInRange_of_scalarsEq (scalarsEq_follow_path _) ho1
                · exact needsInRange_of_scalarsEq (scalarsEq_greedy _ _ _ _ _)
                    (needsInRange_of_scalarsEq (scalarsEq_follow_path _) ho1)
          · exact ho1
        · exact ho1
      -- CarryingMeat
      · split
        · split
          · exact ho1
          · split
            · exact needsInRange_of_scalarsEq (scalarsEq_follow_path _) ho1
            · exact needsInRange_of_scalarsEq (scalarsEq_greedy _ _ _ _ _)
                (needsInRange_of_scalarsEq (scalarsEq_follow_path _) ho1)
        · exact ho1
      -- GoingTo
      · split
        · exact needsInRange_of_scalarsEq (scalarsEq_arrive _ _ _ _) ho1
        · split
          · exact needsInRange_of_scalarsEq (scalarsEq_follow_path _) ho1
          · exact needsInRange_of_scalarsEq (scalarsEq_greedy _ _ _ _ _)
              (needsInRange_of_scalarsEq (scalarsEq_follow_path _) ho1)
      -- Idle
      · exact needsInRange_of_scalarsEq (scalarsEq_decide_action _ _ _ _ _ _ _) ho1


/-! ## Projection lemmas for the needs update -/

theorem updateNeeds_activity (o : Orc) (n : Bool) :
    (o.updateNeeds n).activity = o.activity := by
  obtain ⟨nm, x, y, hg, en, th, hl, al, dt, act, it, cf, pa, ps⟩ := o
  cases act <;> rfl

theorem updateNeeds_x (o : Orc) (n : Bool) : (o.updateNeeds n).x = o.x := by
  obtain ⟨nm, x, y, hg, en, th, hl, al, dt, act, it, cf, pa, ps⟩ := o
  cases act <;> rfl

theorem updateNeeds_y (o : Orc) (n : Bool) : (o.updateNeeds n).y = o.y := by
  obtain ⟨nm, x, y, hg, en, th, hl, al, dt, act, it, cf, pa, ps⟩ := o
  cases act <;> rfl

theorem updateNeeds_path (o : Orc) (n : Bool) : (o.updateNeeds n).path = o.path := by
  obtain ⟨nm, x, y, hg, en, th, hl, al, dt, act, it, cf, pa, ps⟩ := o
  cases act <;> rfl

theorem updateNeeds_path_step (o : Orc) (n : Bool) :
    (o.updateNeeds n).path_step = o.path_step := by
  obtain ⟨nm, x, y, hg, en, th, hl, al, dt, act, it, cf, pa, ps⟩ := o
  cases act <;> rfl

theorem updateNeeds_alive (o : Orc) (n : Bool) : (o.updateNeeds n).alive = o.alive := by
  obtain ⟨nm, x, y, hg, en, th, hl, al, dt, act, it, cf, pa, ps⟩ := o
  cases act <;> rfl

theorem updateNeeds_carrying (o : Orc) (n : Bool) :
    (o.updateNeeds n).carrying_food = o.carrying_food := by
  obtain ⟨nm, x, y, hg, en, th, hl, al, dt, act, it, cf, pa, ps⟩ := o
  cases act <;> rfl

/-! ## C5: need clamping -/

/-- C5: across any sequence of update calls, with arbitrary worlds, tick
values, day phases and random draws, the four physiological scalars hunger,
thirst, energy and health of an orc that starts in [0, 100] never leave
[0, 100] (the Eating and Drinking deltas included). -/
theorem needs_always_clamped (o : Orc) (ss : List StepInput)
    (h : needsInRange o) : needsInRange (runUpdates o ss) := by
  induction ss generalizing o with
  | nil => exact h
  | cons s ss ih =>
    exact ih _ (update_preserves_needsInRange o s.world s.animals s.rng s.log
      s.tick s.is_night h)

/-- C5 witness: a freshly spawned orc, one eating tick and one sleeping tick. -/
theorem needs_always_clamped_witness :
    needsInRange (runUpdates { Orc.new "Grok" 10 10 with activity := Activity.Eating }
      [⟨grassWorld, [], ⟨fun _ => 0, 0⟩, EventLog.new, 1, false⟩,
       ⟨grassWorld, [], ⟨fun _ => 0, 0⟩, EventLog.new, 2, true⟩]) :=
  needs_always_clamped _ _ (by
    refine ⟨?_, ?_, ?_, ?_, ?_, ?_, ?_, ?_⟩ <;> norm_num [Orc.new])

/-! ## C6: death finality -/

/-- C6: during an update of a living orc whose post-needs health has reached 0,
the alive flag becomes false and the death tick is set to the current tick;
and an update of a dead orc returns the orc completely unchanged (so hunger,
thirst, energy, health, position, activity and death tick are all frozen). -/
theorem death_finality (o : Orc) (w : World) (animals : List Animal) (r : Rng)
    (log : EventLog) (tick : Nat) (night : Bool) :
    (o.alive = true → (o.updateNeeds night).health ≤ 0 →
      (o.update w animals r log tick night).orc.alive = false ∧
      (o.update w animals r log tick night).orc.death_tick = some tick) ∧
    (o.alive = false → (o.update w animals r log tick night).orc = o) := by
  constructor
  · intro halive hdead
    unfold Orc.update
    rw [halive]
    rw [if_neg (by simp)]
    simp only []
    rw [if_pos hdead]
    exact ⟨rfl, rfl⟩
  · intro hdead
    unfold Orc.update
    rw [hdead]
    rfl

/-- C6 witness: a starving, parched orc at health 1 dies at tick 7 with its
death tick recorded; a dead orc is returned untouched. -/
theorem death_finality_witness :
    (({ Orc.new "Grok" 1 1 with health := 1, hunger := 96, thirst := 96 }.update
        grassWorld [] ⟨fun _ => 0, 0⟩ EventLog.new 7 false).orc.alive = false ∧
      ({ Orc.new "Grok" 1 1 with health := 1, hunger := 96, thirst := 96 }.update
        grassWorld [] ⟨fun _ => 0, 0⟩ EventLog.new 7 false).orc.death_tick = some 7) ∧
    ({ Orc.new "Murg" 1 1 with alive := false }.update
        grassWorld [] ⟨fun _ => 0, 0⟩ EventLog.new 8 true).orc =
      { Orc.new "Murg" 1 1 with alive := false } :=
  ⟨(death_finality _ _ _ _ _ _ _).1 rfl (by norm_num [Orc.updateNeeds, Orc.new, clampQ]),
   (death_finality _ _ _ _ _ _ _).2 rfl⟩

/-! ## C9: hunting target safety -/

/-- C9: for every value of the Hunting target index, the update of a living,
surviving orc never indexes out of bounds (the embedding reads the animal list
through a total optional lookup), and whenever the index is at or beyond the
animal-list length or the target animal is dead, the activity reverts to
Idle. -/
theorem hunting_target_safety (o : Orc) (w : World) (animals : List Animal)
    (r : Rng) (log : EventLog) (tick : Nat) (night : Bool) (idx : Nat)
    (halive : o.alive = true)
    (hact : o.activity = Activity.Hunting idx)
    (hsurv : ¬ (o.updateNeeds night).health ≤ 0)
    (hbad : animals.length ≤ idx ∨ ∀ a, animals[idx]? = some a → a.alive = false) :
    (o.update w animals r log tick night).orc.activity = Activity.Idle := by
  unfold Orc.update
  rw [halive]
  rw [if_neg (by simp)]
  simp only []
  rw [if_neg hsurv]
  have hact1 : (o.updateNeeds night).activity = Activity.Hunting idx :=
    (updateNeeds_activity o night).trans hact
  rw [hact1]
  simp only []
  cases hi : animals[idx]? with
  | none => rfl
  | some a =>
    dsimp only
    rcases hbad with hlen | hdead
    · exact absurd hi (by simp [List.getElem?_eq_none hlen])
    · rw [if_neg (by simp [hdead a hi])]

/-- C9 witness: a hunting orc whose stale target index 0 points into an empty
animal collection reverts to Idle. -/
theorem hunting_target_safety_witness :
    ({ Orc.new "Zug" 2 2 with activity := Activity.Hunting 0 }.update
      grassWorld [] ⟨fun _ => 0, 0⟩ EventLog.new 3 false).orc.activity =
      Activity.Idle :=
  hunting_target_safety _ _ _ _ _ _ _ 0 rfl rfl
    (by norm_num [Orc.updateNeeds, Orc.new, clampQ]) (Or.inl (by simp))

/-! ## C3: deer flee behavior -/

/-- C3 counterexample: deer at (10, 10) with orcs at (15, 10) and (9, 10).
The unique nearest orc within Manhattan distance 5 is (9, 10), and fleeing
directly away from it onto the walkable tile (12, 10) is what the claim
predicts; the update instead moves the deer to (8, 10), fleeing the first
listed orc. -/
theorem deer_flee_nearest_counterexample :
    (∀ p ∈ [((15 : Nat), (10 : Nat)), (9, 10)], p ≠ (9, 10) →
      abs_diff 10 9 + abs_diff 10 10 < abs_diff 10 p.1 + abs_diff 10 p.2) ∧
    abs_diff 10 9 + abs_diff 10 10 ≤ 5 ∧
    grassWorld.is_walkable 12 10 = true ∧
    ((Animal.new AnimalKind.Deer 10 10).update grassWorld [(15, 10), (9, 10)]
        ⟨fun _ => 0, 0⟩).1.x = 8 ∧
    ((Animal.new AnimalKind.Deer 10 10).update grassWorld [(15, 10), (9, 10)]
        ⟨fun _ => 0, 0⟩).1.y = 10 ∧
    ¬ (((Animal.new AnimalKind.Deer 10 10).update grassWorld [(15, 10), (9, 10)]
        ⟨fun _ => 0, 0⟩).1.x = 12 ∧
       ((Animal.new AnimalKind.Deer 10 10).update grassWorld [(15, 10), (9, 10)]
        ⟨fun _ => 0, 0⟩).1.y = 10) := by
  refine ⟨?_, ?_, ?_, ?_, ?_, ?_⟩ <;> decide

/-- C3 (amended): a living deer with at least one orc within Manhattan
distance 5 moves 2 tiles (per axis, the sign of the difference times 2)
directly away from the FIRST such orc in the collection's iteration order (not
necessarily the nearest), clamped to map bounds and only onto a walkable
destination, and performs no other movement and no random draw that tick. -/
theorem deer_flee_first (a : Animal) (w : World) (orcs : List (Nat × Nat))
    (r : Rng) (ox oy : Nat)
    (halive : a.alive = true)
    (hdeer : a.kind = AnimalKind.Deer)
    (hfind : orcs.find? (fun o => decide (abs_diff a.x o.1 + abs_diff a.y o.2 ≤ 5)) =
      some (ox, oy)) :
    a.update w orcs r =
      (if w.is_walkable
          (clampCoord ((a.x : Int) + ((a.x : Int) - (ox : Int)).sign * 2) (MAP_WIDTH - 1))
          (clampCoord ((a.y : Int) + ((a.y : Int) - (oy : Int)).sign * 2) (MAP_HEIGHT - 1)) then
        { a with
          x := clampCoord ((a.x : Int) + ((a.x : Int) - (ox : Int)).sign * 2) (MAP_WIDTH - 1)
          y := clampCoord ((a.y : Int) + ((a.y : Int) - (oy : Int)).sign * 2) (MAP_HEIGHT - 1) }
      else a, r) := by
  unfold Animal.update
  simp only [halive, hdeer, hfind, reduceCtorEq, reduceIte]
  split <;> rfl

/-- C3 witness: a deer at (10, 10) with a single orc at (15, 10) flees to
(8, 10). -/
theorem deer_flee_first_witness :
    (Animal.new AnimalKind.Deer 10 10).update grassWorld [(15, 10)] ⟨fun _ => 0, 0⟩ =
      (if grassWorld.is_walkable
          (clampCoord (((10 : Nat) : Int) + (((10 : Nat) : Int) - ((15 : Nat) : Int)).sign * 2) (MAP_WIDTH - 1))
          (clampCoord (((10 : Nat) : Int) + (((10 : Nat) : Int) - ((10 : Nat) : Int)).sign * 2) (MAP_HEIGHT - 1)) then
        { Animal.new AnimalKind.Deer 10 10 with
          x := clampCoord (((10 : Nat) : Int) + (((10 : Nat) : Int) - ((15 : Nat) : Int)).sign * 2) (MAP_WIDTH - 1)
          y := clampCoord (((10 : Nat) : Int) + (((10 : Nat) : Int) - ((10 : Nat) : Int)).sign * 2) (MAP_HEIGHT - 1) }
      else Animal.new AnimalKind.Deer 10 10, ⟨fun _ => 0, 0⟩) :=
  deer_flee_first _ _ _ _ 15 10 rfl rfl (by decide)

/-! ## C8: birth gate -/

/-- C8: at a tick that is a multiple of 300, when the living population lies
in [2, 15), average hunger is below 40, average energy is above 40 and the
stockpile is positive, exactly one new (living) orc is appended, the living
population grows by 1 and the stockpile drops by exactly 1; when any of these
conditions fails, the birth check changes neither the orc list nor the
world. -/
theorem birth_gate (st : AppState) (tick : Nat) (htick : tick % 300 = 0) :
    (2 ≤ (st.orcs.filter (fun o => o.alive)).length →
     (st.orcs.filter (fun o => o.alive)).length < MAX_CLAN_SIZE →
     ((st.orcs.filter (fun o => o.alive)).map (fun o => o.hunger)).sum /
        (((st.orcs.filter (fun o => o.alive)).length : ℚ)) < 40 →
     40 < ((st.orcs.filter (fun o => o.alive)).map (fun o => o.energy)).sum /
        (((st.orcs.filter (fun o => o.alive)).length : ℚ)) →
     0 < st.world.food_stockpile →
     (∃ newborn : Orc, newborn.alive = true ∧
        (birth_step st tick).orcs = st.orcs ++ [newborn]) ∧
     ((birth_step st tick).orcs.filter (fun o => o.alive)).length =
        (st.orcs.filter (fun o => o.alive)).length + 1 ∧
     (birth_step st tick).world.food_stockpile = st.world.food_stockpile - 1) ∧
    (¬ (2 ≤ (st.orcs.filter (fun o => o.alive)).length ∧
        (st.orcs.filter (fun o => o.alive)).length < MAX_CLAN_SIZE ∧
        ((st.orcs.filter (fun o => o.alive)).map (fun o => o.hunger)).sum /
          (((st.orcs.filter (fun o => o.alive)).length : ℚ)) < 40 ∧
        40 < ((st.orcs.filter (fun o => o.alive)).map (fun o => o.energy)).sum /
          (((st.orcs.filter (fun o => o.alive)).length : ℚ)) ∧
        0 < st.world.food_stockpile) →
     (birth_step st tick).orcs = st.orcs ∧ (birth_step st tick).world = st.world) := by
  unfold birth_step
  rw [if_pos htick]
  unfold check_birth
  simp only []
  constructor
  · intro h2 h15 hh he hs
    rw [if_neg (by omega)]
    rw [if_pos ⟨hh, he, hs⟩]
    refine ⟨⟨_, rfl, rfl⟩, ?_, rfl⟩
    simp [List.filter_append, Orc.new]
  · intro hfail
    by_cases hcount : (st.orcs.filter (fun o => o.alive)).length < 2 ∨
        MAX_CLAN_SIZE ≤ (st.orcs.filter (fun o => o.alive)).length
    · rw [if_pos hcount]
      exact ⟨rfl, rfl⟩
    · rw [if_neg hcount]
      rw [if_neg (by
        intro hcond
        exact hfail ⟨by omega, by omega, hcond.1, hcond.2.1, hcond.2.2⟩)]
      exact ⟨rfl, rfl⟩

/-- C8 witness: two freshly spawned living orcs (hunger 20, energy 80) with
stockpile 3 at tick 300 produce a birth; with stockpile 0 nothing changes. -/
theorem birth_gate_witness :
    (let stA : AppState :=
      { world := grassWorld, orcs := [Orc.new "Grok" 1 1, Orc.new "Thrak" 2 2],
        rng := ⟨fun _ => 0, 0⟩, event_log := EventLog.new }
     (∃ newborn : Orc, newborn.alive = true ∧
        (birth_step stA 300).orcs = stA.orcs ++ [newborn]) ∧
     ((birth_step stA 300).orcs.filter (fun o => o.alive)).length =
        (stA.orcs.filter (fun o => o.alive)).length + 1 ∧
     (birth_step stA 300).world.food_stockpile = stA.world.food_stockpile - 1) ∧
    (let stB : AppState :=
      { world := { grassWorld with food_stockpile := 0 },
        orcs := [Orc.new "Grok" 1 1, Orc.new "Thrak" 2 2],
        rng := ⟨fun _ => 0, 0⟩, event_log := EventLog.new }
     (birth_step stB 300).orcs = stB.orcs ∧ (birth_step stB 300).world = stB.world) := by
  constructor
  · exact (birth_gate _ 300 rfl).1 (by decide) (by decide)
      (by norm_num [Orc.new]) (by norm_num [Orc.new]) (by decide)
  · exact (birth_gate _ 300 rfl).2 (by
      rintro ⟨-, -, -, -, hs⟩
      simp at hs)

/-! ## C7: decision priority under critical health -/

theorem foldl_fixed {α β : Type} (f : α → β → α) :
    ∀ (l : List β) (acc : α), (∀ b ∈ l, ∀ a, f a b = a) → l.foldl f acc = acc := by
  intro l
  induction l with
  | nil => intro acc h; rfl
  | cons x xs ih =>
    intro acc h
    rw [List.foldl_cons, h x (List.mem_cons_self _ _) acc]
    exact ih acc (fun b hb a => h b (List.mem_cons_of_mem _ hb) a)

theorem nearestStep_nomatch {w : World} {fx fy : Nat} {t : Terrain} {y x : Nat}
    (h : ¬ w.tiles x y = t) (a : Option (Nat × Nat × Nat)) :
    nearestStep w fx fy t y a x = a := if_neg h

theorem nearestRow_nomatch {w : World} {fx fy : Nat} {t : Terrain} {y : Nat}
    (h : ∀ x, ¬ w.tiles x y = t) (a : Option (Nat × Nat × Nat)) :
    nearestRow w fx fy t a y = a :=
  foldl_fixed _ _ _ (fun b _ a => nearestStep_nomatch (h b) a)

set_option maxRecDepth 4000 in
theorem waterWorld_row10 :
    nearestRow waterWorld 3 10 Terrain.Water none 10 = some (10, 10, 7) := by
  decide

theorem waterWorld_find_nearest :
    waterWorld.find_nearest 3 10 Terrain.Water = some (10, 10) := by
  unfold World.find_nearest
  have hrow : ∀ y, y ≠ 10 → ∀ a, nearestRow waterWorld 3 10 Terrain.Water a y = a := by
    intro y hy a
    apply nearestRow_nomatch
    intro x
    show ¬ (if x = 10 ∧ y = 10 then Terrain.Water else Terrain.Grass) = Terrain.Water
    rw [if_neg (by tauto)]
    simp
  have hsplit : List.range MAP_HEIGHT =
      List.range' 0 10 ++ 10 :: List.range' 11 139 := by decide
  rw [hsplit, List.foldl_append, List.foldl_cons]
  rw [foldl_fixed _ _ _ (fun b hb a => hrow b (by
      have := List.mem_range'_1.1 hb
      omega) a)]
  rw [foldl_fixed _ _ _ (fun b hb a => hrow b (by
      have := List.mem_range'_1.1 hb
      omega) a)]
  rw [waterWorld_row10]
  rfl

theorem waterWorld_water_adjacent :
    waterWorld.find_water_adjacent 3 10 = some (9, 10) := by
  unfold World.find_water_adjacent
  rw [waterWorld_find_nearest]
  decide

/-- C7: an idle orc with critical health (below 20) whose thirst strictly
exceeds both its hunger and its energy deficit, and for which a water-adjacent
tile is found, takes exactly the Desperate for water branch of the decision
procedure: the result is the GoingTo activity for that tile with that reason,
the random source is untouched, and no other branch runs — regardless of how
large hunger is. -/
theorem desperate_for_water_priority (o : Orc) (w : World) (animals : List Animal)
    (r : Rng) (log : EventLog) (tick : Nat) (night : Bool) (wx wy : Nat)
    (hhealth : o.health < 20)
    (hth1 : o.thirst > o.hunger)
    (hth2 : o.thirst > 100 - o.energy)
    (hwater : w.find_water_adjacent o.x o.y = some (wx, wy)) :
    o.decide_action w animals r log tick night =
      (o.go_to wx wy "Desperate for water" w, r,
        log.log tick (o.name ++ " desperately needs water!")) ∧
    (o.decide_action w animals r log tick night).1.activity =
      Activity.GoingTo wx wy "Desperate for water" := by
  have hmain : o.decide_action w animals r log tick night =
      (o.go_to wx wy "Desperate for water" w, r,
        log.log tick (o.name ++ " desperately needs water!")) := by
    unfold Orc.decide_action
    simp only []
    rw [if_pos hhealth, if_pos (⟨hth1, hth2⟩ : o.thirst > o.hunger ∧
      o.thirst > 100 - o.energy), hwater]
    dsimp only
    simp only [Option.some_orElse]
  rw [hmain]
  exact ⟨rfl, rfl⟩

/-- C7 witness: an orc at (3, 10) with health 10, thirst 90, hunger 80 (above
its own threshold 70) and energy 50, next to the single-pond world, heads for
the water-adjacent tile (9, 10). -/
theorem desperate_for_water_priority_witness :
    ({ Orc.new "Grok" 3 10 with
        health := 10
        thirst := 90
        hunger := 80
        energy := 50 }.decide_action waterWorld [] ⟨fun _ => 0, 0⟩
        EventLog.new 5 false).1.activity =
      Activity.GoingTo 9 10 "Desperate for water" :=
 by
  have h := desperate_for_water_priority
    { Orc.new "Grok" 3 10 with
        health := 10
        thirst := 90
        hunger := 80
        energy := 50 } waterWorld [] ⟨fun _ => 0, 0⟩ EventLog.new 5 false 9 10
    (by norm_num [Orc.new]) (by norm_num [Orc.new]) (by norm_num [Orc.new])
    (waterWorld_water_adjacent)
  exact h.2

/-! ## Priority-queue extraction lemmas -/

theorem popMin_none : ∀ {l : List Node}, popMin l = none ↔ l = [] := by
  intro l
  cases l with
  | nil => simp [popMin]
  | cons n ns =>
    simp only [popMin]
    cases popMin ns with
    | none => simp
    | some m => cases m with | mk a b => simp only []; split <;> simp

theorem popMin_perm : ∀ {l : List Node} {e : Node} {r : List Node},
    popMin l = some (e, r) → l.Perm (e :: r) := by
  intro l
  induction l with
  | nil => intro e r h; simp [popMin] at h
  | cons n ns ih =>
    intro e r h
    unfold popMin at h
    cases hns : popMin ns with
    | none =>
      rw [hns] at h
      have hnil : ns = [] := popMin_none.1 hns
      subst hnil
      simp only [Option.some.injEq, Prod.mk.injEq] at h
      obtain ⟨h1, h2⟩ := h
      subst h1
      subst h2
      exact List.Perm.refl _
    | some mrest =>
      obtain ⟨m, rest⟩ := mrest
      rw [hns] at h
      dsimp only at h
      split at h
      · simp only [Option.some.injEq, Prod.mk.injEq] at h
        obtain ⟨h1, h2⟩ := h
        subst h1
        subst h2
        exact List.Perm.refl _
      · simp only [Option.some.injEq, Prod.mk.injEq] at h
        obtain ⟨h1, h2⟩ := h
        subst h1
        subst h2
        exact ((ih hns).cons n).trans (List.Perm.swap m n rest)

theorem popMin_mem {l : List Node} {e : Node} {r : List Node}
    (h : popMin l = some (e, r)) : e ∈ l :=
  (popMin_perm h).mem_iff.2 (List.mem_cons_self _ _)

theorem popMin_rest_mem {l : List Node} {e : Node} {r : List Node}
    (h : popMin l = some (e, r)) {x : Node} (hx : x ∈ r) : x ∈ l :=
  (popMin_perm h).mem_iff.2 (List.mem_cons_of_mem _ hx)

theorem popMin_min : ∀ {l : List Node} {e : Node} {r : List Node},
    popMin l = some (e, r) → ∀ x ∈ l, e.priority ≤ x.priority := by
  intro l
  induction l with
  | nil => intro e r h; simp [popMin] at h
  | cons n ns ih =>
    intro e r h x hx
    unfold popMin at h
    cases hns : popMin ns with
    | none =>
      rw [hns] at h
      have hnil : ns = [] := popMin_none.1 hns
      subst hnil
      simp only [Option.some.injEq, Prod.mk.injEq] at h
      obtain ⟨h1, h2⟩ := h
      subst h1
      rcases List.mem_cons.1 hx with rfl | hx'
      · exact le_refl _
      · simp at hx'
    | some mrest =>
      obtain ⟨m, rest⟩ := mrest
      rw [hns] at h
      dsimp only at h
      split at h
      next hle =>
        simp only [Option.some.injEq, Prod.mk.injEq] at h
        obtain ⟨h1, h2⟩ := h
        subst h1
        rcases List.mem_cons.1 hx with rfl | hx'
        · exact le_refl _
        · exact le_trans hle (ih hns x hx')
      next hle =>
        simp only [Option.some.injEq, Prod.mk.injEq] at h
        obtain ⟨h1, h2⟩ := h
        subst h1
        rcases List.mem_cons.1 hx with rfl | hx'
        · exact le_of_not_le hle
        · exact ih hns x hx'

/-! ## Reconstruction lemmas -/

theorem reconstructGo_acc (cf : Nat → Nat → Option (Nat × Nat)) (sx sy : Nat) :
    ∀ (fuel : Nat) (c1 c2 : Nat) (acc : List (Nat × Nat)),
      reconstructGo cf sx sy fuel c1 c2 acc =
        reconstructGo cf sx sy fuel c1 c2 [] ++ acc := by
  intro fuel
  induction fuel with
  | zero => intro c1 c2 acc; rfl
  | succ fuel ih =>
    intro c1 c2 acc
    unfold reconstructGo
    split
    · rfl
    · cases cf c1 c2 with
      | none => rfl
      | some p =>
        simp only []
        rw [ih p.1 p.2 ((c1, c2) :: acc), ih p.1 p.2 [(c1, c2)]]
        simp

theorem reconstruct_path_last (cf : Nat → Nat → Option (Nat × Nat))
    (sx sy gx gy : Nat) (hne : ¬ (gx = sx ∧ gy = sy))
    (hcf : (cf gx gy).isSome = true) :
    (reconstruct_path cf sx sy gx gy).getLast? = some (gx, gy) := by
  unfold reconstruct_path
  show (reconstructGo cf sx sy (Nat.succ (MAP_WIDTH * MAP_HEIGHT)) gx gy []).getLast? = _
  unfold reconstructGo
  rw [if_neg hne]
  cases hc : cf gx gy with
  | none => rw [hc] at hcf; simp at hcf
  | some p =>
    simp only []
    rw [reconstructGo_acc]
    simp

/-! ## C2: search budget and no partial paths -/

theorem expandOne_searched (w : World) (gx gy : Nat) (at_ : Bool) (cur : Node)
    (st : SearchState) (d : Int × Int) :
    (expandOne w gx gy at_ cur st d).searched = st.searched := by
  unfold expandOne
  simp only []
  split
  · rfl
  · split
    · rfl
    · split
      · rfl
      · generalize (if d.1 ≠ 0 ∧ d.2 ≠ 0 then (14 : Nat) else 10) = mc
        split <;> rfl

theorem expandFold_searched (w : World) (gx gy : Nat) (at_ : Bool) (cur : Node)
    (st : SearchState) (l : List (Int × Int)) :
    (l.foldl (expandOne w gx gy at_ cur) st).searched = st.searched := by
  induction l generalizing st with
  | nil => rfl
  | cons d ds ih => rw [List.foldl_cons, ih, expandOne_searched]

theorem expandOne_cfInv {sx sy : Nat} (w : World) (gx gy : Nat) (at_ : Bool)
    (cur : Node) (st : SearchState) (d : Int × Int)
    (h : cfInv sx sy st) : cfInv sx sy (expandOne w gx gy at_ cur st d) := by
  unfold expandOne
  simp only []
  split
  · exact h
  · split
    · exact h
    · split
      · exact h
      · generalize (if d.1 ≠ 0 ∧ d.2 ≠ 0 then (14 : Nat) else 10) = mc
        split
        · intro e he
          simp only [List.mem_append, List.mem_singleton] at he
          rcases he with he | rfl
          · rcases h e he with hs | hc
            · exact Or.inl hs
            · refine Or.inr ?_
              simp only []
              split
              · simp
              · exact hc
          · refine Or.inr ?_
            simp
        · exact h

theorem expandFold_cfInv {sx sy : Nat} (w : World) (gx gy : Nat) (at_ : Bool)
    (cur : Node) (st : SearchState) (l : List (Int × Int))
    (h : cfInv sx sy st) : cfInv sx sy (l.foldl (expandOne w gx gy at_ cur) st) := by
  induction l generalizing st with
  | nil => exact h
  | cons d ds ih => exact ih _ (expandOne_cfInv w gx gy at_ cur st d h)

theorem astarLoop_spec (w : World) (sx sy gx gy : Nat) (at_ : Bool) :
    ∀ (fuel : Nat) (st : SearchState) (p : List (Nat × Nat)) (n : Nat),
      cfInv sx sy st → st.searched ≤ max_search →
      astarLoop w sx sy gx gy at_ fuel st = (some p, n) →
      n ≤ max_search ∧ (¬ (gx = sx ∧ gy = sy) → p.getLast? = some (gx, gy)) := by
  intro fuel
  induction fuel with
  | zero =>
    intro st p n h1 h2 h
    simp [astarLoop] at h
  | succ fuel ih =>
    intro st p n h1 h2 h
    unfold astarLoop at h
    cases hpop : popMin st.openList with
    | none => rw [hpop] at h; simp at h
    | some er =>
      obtain ⟨e, rest⟩ := er
      rw [hpop] at h
      dsimp only at h
      by_cases hgoal : e.x = gx ∧ e.y = gy
      · rw [if_pos hgoal] at h
        simp only [Prod.mk.injEq, Option.some.injEq] at h
        refine ⟨h.2 ▸ h2, ?_⟩
        intro hne
        rw [← h.1]
        apply reconstruct_path_last _ _ _ _ _ hne
        rcases h1 e (popMin_mem hpop) with hs | hc
        · exact absurd ⟨hgoal.1.symm.trans hs.1, hgoal.2.symm.trans hs.2⟩ hne
        · rw [← hgoal.1, ← hgoal.2]
          exact hc
      · rw [if_neg hgoal] at h
        split at h
        · -- visited: skip
          exact ih { st with openList := rest } p n
            (fun e' he' => h1 e' (popMin_rest_mem hpop he')) h2 h
        · -- expand
          split at h
          next hbud => simp at h
          next hbud =>
            refine ih _ p n ?_ ?_ h
            · apply expandFold_cfInv
              intro e' he'
              exact h1 e' (popMin_rest_mem hpop he')
            · rw [expandFold_searched]
              exact Nat.not_lt.1 hbud
  
/-- C2: the pathfinder returns a full path only when the goal is popped within
the 5000-expansion budget — an input whose search would exceed the budget
before reaching the goal yields None — and every returned path is either the
empty path in the degenerate start-equals-goal case or ends exactly at the
goal; no partial or approximate path is ever returned. -/
theorem astar_budget_bound (w : World) (sx sy gx gy : Nat) (allow_tree : Bool) :
    (∀ p n, find_path_run w sx sy gx gy allow_tree = (some p, n) → n ≤ max_search) ∧
    (∀ p, find_path w sx sy gx gy allow_tree = some p →
      (p = [] ∧ sx = gx ∧ sy = gy) ∨ p.getLast? = some (gx, gy)) := by
  constructor
  · intro p n h
    unfold find_path_run at h
    split at h
    · simp only [Prod.mk.injEq] at h
      rw [← h.2]
      exact Nat.zero_le _
    · exact (astarLoop_spec w sx sy gx gy allow_tree astarFuel _ p n
        (by
          intro e he
          simp only [initState, List.mem_singleton] at he
          subst he
          exact Or.inl ⟨rfl, rfl⟩)
        (Nat.zero_le _) h).1
  · intro p h
    unfold find_path find_path_run at h
    split at h
    · simp only [Prod.fst, Option.some.injEq] at h
      next hse => exact Or.inl ⟨h.symm, hse.1, hse.2⟩
    · next hse =>
      refine Or.inr ?_
      cases hrun : astarLoop w sx sy gx gy allow_tree astarFuel
        (initState sx sy gx gy) with
      | mk res n =>
        rw [hrun] at h
        cases res with
        | none => simp at h
        | some q =>
          simp only [Option.some.injEq] at h
          subst h
          exact (astarLoop_spec w sx sy gx gy allow_tree astarFuel _ q n
            (by
              intro e he
              simp only [initState, List.mem_singleton] at he
              subst he
              exact Or.inl ⟨rfl, rfl⟩)
            (Nat.zero_le _) hrun).2 (fun hc => hse ⟨hc.1.symm, hc.2.symm⟩)

/-- C2 witness: the degenerate start-equals-goal search returns the empty path
with zero expansions. -/
theorem astar_budget_bound_witness :
    (0 : Nat) ≤ max_search ∧
      ((([] : List (Nat × Nat)) = [] ∧ 5 = 5 ∧ 7 = 7) ∨
        ([] : List (Nat × Nat)).getLast? = some (5, 7)) :=
  ⟨(astar_budget_bound grassWorld 5 7 5 7 false).1 [] 0 rfl,
    (astar_budget_bound grassWorld 5 7 5 7 false).2 [] rfl⟩


/-! ## Geometry of the 8-connected grid -/

theorem mem_neighbors_iff {c v : Nat × Nat} :
    v ∈ neighbors c ↔ ∃ d ∈ DIRS, cellOf c d = some v := by
  unfold neighbors
  simp [List.mem_filterMap]

theorem stepCost_ge_10 (a b : Nat × Nat) : 10 ≤ stepCost a b := by
  unfold stepCost
  split <;> omega

theorem cellOf_facts {c v : Nat × Nat} {d : Int × Int} (hd : d ∈ DIRS)
    (h : cellOf c d = some v) :
    v.1 < MAP_WIDTH ∧ v.2 < MAP_HEIGHT ∧ v ≠ c ∧
    abs_diff c.1 v.1 ≤ 1 ∧ abs_diff c.2 v.2 ≤ 1 ∧
    stepCost c v = (if d.1 ≠ 0 ∧ d.2 ≠ 0 then 14 else 10) := by
  obtain ⟨c1, c2⟩ := c
  obtain ⟨v1, v2⟩ := v
  obtain ⟨d1, d2⟩ := d
  unfold cellOf at h
  simp only [MAP_WIDTH, MAP_HEIGHT] at h ⊢
  split at h
  · simp at h
  · next hb =>
    simp only [Option.some.injEq, Prod.mk.injEq] at h
    push_neg at hb
    obtain ⟨hb1, hb2, hb3, hb4⟩ := hb
    obtain ⟨h1, h2⟩ := h
    simp only [DIRS, List.mem_cons, Prod.mk.injEq, List.mem_singleton,
      List.not_mem_nil, or_false] at hd
    unfold stepCost abs_diff
    simp only at h1 h2 hb1 hb2 hb3 hb4 ⊢
    subst h1
    subst h2
    rcases hd with hd | hd | hd | hd | hd | hd | hd | hd <;>
      obtain ⟨rfl, rfl⟩ := hd <;>
      refine ⟨by omega, by omega,
        by simp only [ne_eq, Prod.mk.injEq, not_and]; intro h3; omega,
        by omega, by omega, by split_ifs <;> omega⟩

set_option maxHeartbeats 1000000 in
theorem heuristic_move (x1 y1 x2 y2 gx gy : Nat)
    (hx : abs_diff x1 x2 ≤ 1) (hy : abs_diff y1 y2 ≤ 1) :
    heuristic x1 y1 gx gy ≤
      (if x1 ≠ x2 ∧ y1 ≠ y2 then 14 else 10) + heuristic x2 y2 gx gy := by
  unfold heuristic abs_diff at *
  dsimp only at *
  simp only [Nat.min_def, Nat.max_def]
  split_ifs <;> omega

theorem heuristic_consistent {gx gy : Nat} {a b : Nat × Nat}
    (hn : b ∈ neighbors a) :
    heuristic a.1 a.2 gx gy ≤ stepCost a b + heuristic b.1 b.2 gx gy := by
  obtain ⟨d, hd, hcell⟩ := mem_neighbors_iff.1 hn
  obtain ⟨-, -, -, hx, hy, -⟩ := cellOf_facts hd hcell
  have := heuristic_move a.1 a.2 b.1 b.2 gx gy hx hy
  unfold stepCost
  exact this

theorem heuristic_self (x y : Nat) : heuristic x y x y = 0 := by
  unfold heuristic abs_diff
  dsimp only
  omega

/-! ## Chains of valid steps -/

theorem chain_nil {w : World} {at_ : Bool} {gx gy : Nat} {c e : Nat × Nat} :
    chain w at_ gx gy c [] e ↔ c = e := Iff.rfl

theorem chain_append {w : World} {at_ : Bool} {gx gy : Nat} :
    ∀ {p q : List (Nat × Nat)} {c e : Nat × Nat},
      chain w at_ gx gy c (p ++ q) e ↔
        ∃ m, chain w at_ gx gy c p m ∧ chain w at_ gx gy m q e := by
  intro p
  induction p with
  | nil =>
    intro q c e
    constructor
    · intro h
      exact ⟨c, rfl, h⟩
    · rintro ⟨m, rfl, h⟩
      exact h
  | cons a p ih =>
    intro q c e
    constructor
    · rintro ⟨hs, hrest⟩
      obtain ⟨m, h1, h2⟩ := ih.1 hrest
      exact ⟨m, ⟨hs, h1⟩, h2⟩
    · rintro ⟨m, ⟨hs, h1⟩, h2⟩
      exact ⟨hs, ih.2 ⟨m, h1, h2⟩⟩

theorem pathCost_append {w : World} {at_ : Bool} {gx gy : Nat} :
    ∀ {p : List (Nat × Nat)} {c m : Nat × Nat} (q : List (Nat × Nat)),
      chain w at_ gx gy c p m →
      pathCost c (p ++ q) = pathCost c p + pathCost m q := by
  intro p
  induction p with
  | nil =>
    intro c m q h
    rw [chain_nil] at h
    subst h
    simp [pathCost]
  | cons a p ih =>
    intro c m q h
    obtain ⟨hs, hrest⟩ := h
    simp only [List.cons_append, pathCost, List.append_eq]
    rw [ih q hrest]
    omega

theorem h_chain {w : World} {at_ : Bool} {gx gy : Nat} :
    ∀ {p : List (Nat × Nat)} {a b : Nat × Nat},
      chain w at_ gx gy a p b →
      heuristic a.1 a.2 gx gy ≤ pathCost a p + heuristic b.1 b.2 gx gy := by
  intro p
  induction p with
  | nil =>
    intro a b h
    rw [chain_nil] at h
    subst h
    simp [pathCost]
  | cons c p ih =>
    intro a b h
    obtain ⟨⟨hn, _⟩, hrest⟩ := h
    calc heuristic a.1 a.2 gx gy ≤ stepCost a c + heuristic c.1 c.2 gx gy :=
          heuristic_consistent hn
      _ ≤ stepCost a c + (pathCost c p + heuristic b.1 b.2 gx gy) :=
          Nat.add_le_add_left (ih hrest) _
      _ = pathCost a (c :: p) + heuristic b.1 b.2 gx gy := by
          simp [pathCost]
          omega

theorem AInv_init (w : World) (at_ : Bool) (sx sy gx gy : Nat) :
    AInv w at_ sx sy gx gy (initState sx sy gx gy) := by
  constructor
  · simp [initState]
  · intro x y c hg
    simp only [initState] at hg
    split at hg
    · next hxy =>
      simp only [Option.some.injEq] at hg
      refine ⟨[], ?_, ?_⟩
      · rw [chain_nil]
        exact Prod.ext hxy.1.symm hxy.2.symm
      · simp [pathCost, hg]
    · simp at hg
  · intro e he
    simp only [initState, List.mem_singleton] at he
    subst he
    refine ⟨0, ?_, le_refl _, ?_⟩
    · simp [initState]
    · simp
  · intro x y c hvis hg
    simp only [initState] at hg
    split at hg
    · next hxy =>
      simp only [Option.some.injEq] at hg
      refine ⟨⟨sx, sy, 0, heuristic sx sy gx gy⟩, ?_, hxy.1.symm, hxy.2.symm, hg⟩
      simp [initState]
    · simp at hg
  · intro x y hvis
    simp [initState] at hvis
  · intro x y hvis
    simp [initState] at hvis
  · intro x y u hcf
    simp [initState] at hcf
  · intro x y c hg
    simp only [initState] at hg
    split at hg
    · next hxy => exact Or.inl hxy
    · simp at hg
  · simp [initState]
  · simp [initState, max_search]
  · intro x y c hg
    simp only [initState] at hg
    split at hg
    · next hxy =>
      simp only [Option.some.injEq] at hg
      omega
    · simp at hg

/-- Frontier coverage: along any valid path ending at an unvisited cell there
is an unvisited open node whose recorded cost plus the cost of the remaining
path segment does not exceed the path's cost. -/
theorem reach_frontier {w : World} {at_ : Bool} {sx sy gx gy : Nat}
    {st : SearchState} (hInv : AInv w at_ sx sy gx gy st) :
    ∀ (p : List (Nat × Nat)) (v : Nat × Nat),
      chain w at_ gx gy (sx, sy) p v → st.visited v.1 v.2 = false →
      ∃ (y0 : Nat × Nat) (cy : Nat) (q : List (Nat × Nat)),
        (∃ e ∈ st.openList, e.x = y0.1 ∧ e.y = y0.2 ∧ e.cost = cy) ∧
        st.g_cost y0.1 y0.2 = some cy ∧
        chain w at_ gx gy y0 q v ∧
        cy + pathCost y0 q ≤ pathCost (sx, sy) p := by
  intro p
  induction p using List.reverseRecOn with
  | nil =>
    intro v hch hunvis
    rw [chain_nil] at hch
    subst hch
    refine ⟨(sx, sy), 0, [], ?_, hInv.g_start, ?_, ?_⟩
    · exact hInv.witness sx sy 0 hunvis hInv.g_start
    · rw [chain_nil]
    · simp [pathCost]
  | append_singleton p a ih =>
    intro v hch hunvis
    obtain ⟨m, hp, hstep⟩ := chain_append.1 hch
    obtain ⟨hgood, hae⟩ := hstep
    rw [chain_nil] at hae
    subst hae
    by_cases hmvis : st.visited m.1 m.2 = true
    · -- predecessor visited: relaxation provides the frontier node here
      obtain ⟨cu, cv, hgu, hgv, hle⟩ :=
        hInv.vis_relax m.1 m.2 hmvis a hgood.1 hgood.2 hunvis
      obtain ⟨cm, hgm, hmin⟩ := hInv.vis_opt m.1 m.2 hmvis
      have hcm : cm = cu := by
        rw [hgm] at hgu
        exact Option.some.inj hgu
      subst hcm
      have hcmle : cm ≤ pathCost (sx, sy) p :=
        hmin.2 _ ⟨p, hp, rfl⟩
      refine ⟨a, cv, [], ?_, hgv, ?_, ?_⟩
      · exact hInv.witness a.1 a.2 cv hunvis hgv
      · rw [chain_nil]
      · have := pathCost_append [a] hp
        rw [this]
        simp only [pathCost, Prod.mk.eta] at *
        omega
    · -- predecessor unvisited: extend the inductive frontier segment
      have hmvis' : st.visited m.1 m.2 = false := by
        cases hvm : st.visited m.1 m.2
        · rfl
        · exact absurd hvm hmvis
      obtain ⟨y0, cy, q, hw, hg, hq, hcost⟩ := ih m hp hmvis'
      refine ⟨y0, cy, q ++ [a], hw, hg, ?_, ?_⟩
      · exact chain_append.2 ⟨m, hq, ⟨hgood, rfl⟩⟩
      · rw [pathCost_append [a] hq, pathCost_append [a] hp]
        simp only [pathCost] at *
        omega

/-- Pop exactness and optimality: a minimum-priority node popped at an
unvisited cell carries exactly the recorded g-cost of its cell, and that cost
is optimal among all valid paths. -/
theorem pop_exact {w : World} {at_ : Bool} {sx sy gx gy : Nat}
    {st : SearchState} (hInv : AInv w at_ sx sy gx gy st)
    {e : Node} {rest : List Node}
    (hpop : popMin st.openList = some (e, rest))
    (hunvis : st.visited e.x e.y = false) :
    st.g_cost e.x e.y = some e.cost ∧
    MinReach w at_ sx sy gx gy (e.x, e.y) e.cost := by
  obtain ⟨c, hg, hce, hprio⟩ := hInv.entries e (popMin_mem hpop)
  obtain ⟨e', he', hex, hey, hec⟩ := hInv.witness e.x e.y c hunvis hg
  obtain ⟨c', hg', hce', hprio'⟩ := hInv.entries e' he'
  have hgc' : c' = c := by
    rw [hex, hey] at hg'
    rw [hg] at hg'
    exact (Option.some.inj hg').symm
  have hmin := popMin_min hpop e' he'
  have heq : e.cost = c := by
    rw [hprio, hprio', hex, hey, hec] at hmin
    subst hgc'
    omega
  subst heq
  refine ⟨hg, hInv.g_reach e.x e.y e.cost hg, ?_⟩
  intro m hm
  obtain ⟨p, hp, hpc⟩ := hm
  obtain ⟨y0, cy, q, ⟨e2, he2, he2x, he2y, he2c⟩, hgy, hq, hcost⟩ :=
    reach_frontier hInv p (e.x, e.y) hp hunvis
  obtain ⟨cy2, hgy2, hcy2, hprio2⟩ := hInv.entries e2 he2
  have hcys : cy2 = cy := by
    rw [he2x, he2y] at hgy2
    rw [hgy] at hgy2
    exact (Option.some.inj hgy2).symm
  have hmin2 := popMin_min hpop e2 he2
  have hhq := h_chain hq
  dsimp only at hhq
  rw [hprio, hprio2, he2c] at hmin2
  rw [he2x, he2y] at hmin2
  have hhe : heuristic e.x e.y gx gy ≤ pathCost y0 q + heuristic e.x e.y gx gy := by
    omega
  -- e.cost + h(e) ≤ cy + h(y0) ≤ cy + cost(q) + h(e) ≤ cost(p) + h(e)
  have : e.cost + heuristic e.x e.y gx gy ≤
      cy + (pathCost y0 q + heuristic e.x e.y gx gy) := by
    have h1 : e.cost + heuristic e.x e.y gx gy ≤ cy + heuristic y0.1 y0.2 gx gy := by
      omega
    have h2 := hhq
    omega
  rw [← hpc]
  omega

/-- Reconstruction correctness: walking the predecessor chain from a cell with
recorded cost `cv` yields a valid path from the start of exactly that cost,
provided the fuel dominates `cv / 10`. -/
theorem reconstruct_ok {w : World} {at_ : Bool} {sx sy gx gy : Nat}
    {st : SearchState} (hInv : AInv w at_ sx sy gx gy st) :
    ∀ (cv : Nat) (vx vy fuel : Nat),
      st.g_cost vx vy = some cv → cv + 10 ≤ 10 * fuel →
      chain w at_ gx gy (sx, sy) (reconstructGo st.came_from sx sy fuel vx vy []) (vx, vy) ∧
      pathCost (sx, sy) (reconstructGo st.came_from sx sy fuel vx vy []) = cv := by
  intro cv
  induction cv using Nat.strong_induction_on with
  | _ cv ih =>
    intro vx vy fuel hg hfuel
    obtain ⟨f, rfl⟩ : ∃ f, fuel = f + 1 := ⟨fuel - 1, by omega⟩
    unfold reconstructGo
    by_cases hvs : vx = sx ∧ vy = sy
    · rw [if_pos hvs]
      have hcv0 : cv = 0 := by
        have hgs := hInv.g_start
        rw [hvs.1, hvs.2, hgs] at hg
        exact (Option.some.inj hg).symm
      subst hcv0
      refine ⟨?_, rfl⟩
      rw [chain_nil]
      exact Prod.ext hvs.1.symm hvs.2.symm
    · rw [if_neg hvs]
      rcases hInv.g_cf vx vy cv hg with hstart | hsome
      · exact absurd hstart hvs
      · cases hcf : st.came_from vx vy with
        | none => rw [hcf] at hsome; simp at hsome
        | some u =>
          simp only []
          obtain ⟨huvis, hvn, hvpass, cu, cv', hgu, hgv', hcveq⟩ :=
            hInv.cf_chain vx vy u hcf
          have hcvs : cv' = cv := by
            rw [hg] at hgv'
            exact (Option.some.inj hgv').symm
          subst hcvs
          have hs10 := stepCost_ge_10 u (vx, vy)
          have hcu_lt : cu < cv' := by omega
          obtain ⟨hch, hcost⟩ := ih cu hcu_lt u.1 u.2 f hgu (by omega)
          rw [Prod.mk.eta] at hch
          rw [reconstructGo_acc]
          constructor
          · exact chain_append.2 ⟨u, hch, ⟨⟨hvn, hvpass⟩, rfl⟩⟩
          · rw [pathCost_append [(vx, vy)] hch]
            simp only [pathCost]
            omega

/-! ## Case analysis of one neighbor expansion -/

theorem expandOne_cases (w : World) (gx gy : Nat) (at_ : Bool) (cur : Node)
    (st : SearchState) (d : Int × Int) :
    ((expandOne w gx gy at_ cur st d = st) ∧
      ∀ vx vy, cellOf (cur.x, cur.y) d = some (vx, vy) →
        passableCell w at_ gx gy (vx, vy) → st.visited vx vy = false → False) ∨
    (∃ vx vy, cellOf (cur.x, cur.y) d = some (vx, vy) ∧
      st.visited vx vy = false ∧ passableCell w at_ gx gy (vx, vy) ∧
      (∃ cv, st.g_cost vx vy = some cv ∧ cv ≤ cur.cost + mcost d) ∧
      expandOne w gx gy at_ cur st d = st) ∨
    (∃ vx vy, cellOf (cur.x, cur.y) d = some (vx, vy) ∧
      st.visited vx vy = false ∧ passableCell w at_ gx gy (vx, vy) ∧
      ltG (cur.cost + mcost d) (st.g_cost vx vy) = true ∧
      expandOne w gx gy at_ cur st d =
        { st with
          g_cost := fun a b => if a = vx ∧ b = vy then some (cur.cost + mcost d)
            else st.g_cost a b
          came_from := fun a b => if a = vx ∧ b = vy then some (cur.x, cur.y)
            else st.came_from a b
          openList := st.openList ++ [⟨vx, vy, cur.cost + mcost d,
            cur.cost + mcost d + heuristic vx vy gx gy⟩] }) := by
  have hcell : cellOf (cur.x, cur.y) d =
      (if ((cur.x : Int) + d.1) < 0 ∨ ((cur.y : Int) + d.2) < 0 ∨
          (MAP_WIDTH : Int) ≤ ((cur.x : Int) + d.1) ∨
          (MAP_HEIGHT : Int) ≤ ((cur.y : Int) + d.2) then none
        else some (((cur.x : Int) + d.1).toNat, ((cur.y : Int) + d.2).toNat)) := rfl
  unfold expandOne mcost
  simp only []
  split
  · next hb =>
    refine Or.inl ⟨rfl, ?_⟩
    intro vx vy hc
    rw [hcell, if_pos hb] at hc
    simp at hc
  · next hb =>
    rw [hcell, if_neg hb]
    split
    · next hvis =>
      refine Or.inl ⟨rfl, ?_⟩
      intro vx vy hc hpass hunvis
      simp only [Option.some.injEq, Prod.mk.injEq] at hc
      rw [← hc.1, ← hc.2] at hunvis
      rw [hvis] at hunvis
      exact Bool.true_eq_false.mp hunvis
    · next hvis =>
      split
      · next hpass =>
        refine Or.inl ⟨rfl, ?_⟩
        intro vx vy hc hp hunvis
        simp only [Option.some.injEq, Prod.mk.injEq] at hc
        rw [← hc.1, ← hc.2] at hp
        exact hpass hp
      · next hpass =>
        rw [not_not] at hpass
        generalize (if d.1 ≠ 0 ∧ d.2 ≠ 0 then (14 : Nat) else 10) = mc
        split
        · next hlt =>
          refine Or.inr (Or.inr ⟨_, _, rfl, ?_, hpass, hlt, rfl⟩)
          cases hvv : st.visited ((cur.x : Int) + d.1).toNat ((cur.y : Int) + d.2).toNat
          · rfl
          · exact absurd hvv hvis
        · next hlt =>
          refine Or.inr (Or.inl ⟨_, _, rfl, ?_, hpass, ?_, rfl⟩)
          · cases hvv : st.visited ((cur.x : Int) + d.1).toNat ((cur.y : Int) + d.2).toNat
            · rfl
            · exact absurd hvv hvis
          · cases hgv : st.g_cost ((cur.x : Int) + d.1).toNat ((cur.y : Int) + d.2).toNat with
            | none =>
              rw [hgv] at hlt
              simp [ltG] at hlt
            | some cv =>
              refine ⟨cv, rfl, ?_⟩
              rw [hgv] at hlt
              simp only [ltG, decide_eq_true_eq] at hlt
              omega

theorem expandOne_visited (w : World) (gx gy : Nat) (at_ : Bool) (cur : Node)
    (st : SearchState) (d : Int × Int) :
    (expandOne w gx gy at_ cur st d).visited = st.visited := by
  rcases expandOne_cases w gx gy at_ cur st d with ⟨he, -⟩ | ⟨_, _, _, _, _, _, he⟩ |
    ⟨_, _, _, _, _, _, he⟩ <;> rw [he]

/-- Entering the expansion phase: marking the freshly popped, unvisited,
non-goal node establishes the mid-expansion invariant. -/
theorem AInv_to_mid {w : World} {at_ : Bool} {sx sy gx gy : Nat}
    {st : SearchState} (hInv : AInv w at_ sx sy gx gy st)
    {e : Node} {rest : List Node}
    (hpop : popMin st.openList = some (e, rest))
    (hunvis : st.visited e.x e.y = false)
    (hgoal : ¬ (e.x = gx ∧ e.y = gy))
    (hbud : st.searched + 1 ≤ max_search) :
    MidInv w at_ sx sy gx gy e
      { st with
        openList := rest
        visited := fun a b => if a = e.x ∧ b = e.y then true else st.visited a b
        searched := st.searched + 1 } := by
  obtain ⟨hge, hmin⟩ := pop_exact hInv hpop hunvis
  constructor
  · exact hInv.g_start
  · exact hInv.g_reach
  · intro e' he'
    exact hInv.entries e' (popMin_rest_mem hpop he')
  · intro x y c hv hg
    simp only [] at hv
    split at hv
    · exact absurd hv (by simp)
    · next hne =>
      obtain ⟨e', he', hex, hey, hec⟩ := hInv.witness x y c hv hg
      refine ⟨e', ?_, hex, hey, hec⟩
      rcases List.mem_cons.1 ((popMin_perm hpop).mem_iff.1 he') with rfl | h
      · exact (hne ⟨hex.symm, hey.symm⟩).elim
      · exact h
  · intro x y hv
    simp only [] at hv
    split at hv
    · next hxy =>
      obtain ⟨rfl, rfl⟩ := hxy
      exact ⟨e.cost, hge, hmin⟩
    · exact hInv.vis_opt x y hv
  · intro x y hv hne v hvn hvp hvunvis
    simp only [] at hv hvunvis
    split at hv
    · next hxy => exact absurd hxy hne
    · split at hvunvis
      · exact absurd hvunvis (by simp)
      · exact hInv.vis_relax x y hv v hvn hvp hvunvis
  · intro x y u hcf
    obtain ⟨h1, h2, h3, h4⟩ := hInv.cf_chain x y u hcf
    refine ⟨?_, h2, h3, h4⟩
    simp only []
    split
    · rfl
    · exact h1
  · exact hInv.g_cf
  · simp only []
    rw [if_neg (fun hc => hgoal ⟨hc.1.symm, hc.2.symm⟩)]
    exact hInv.goal_unvis
  · exact hbud
  · intro x y c hg
    have := hInv.g_bound x y c hg
    simp only []
    omega
  · simp
  · exact hge
  · exact hmin
  · have := hInv.g_bound e.x e.y e.cost hge
    simp only []
    omega

/-- One neighbor-expansion step preserves the mid-expansion invariant and
establishes the relaxation obligation for its own offset. -/
theorem MidInv_relax {w : World} {at_ : Bool} {sx sy gx gy : Nat} {cur : Node}
    {st : SearchState} (hM : MidInv w at_ sx sy gx gy cur st)
    {d : Int × Int} (hd : d ∈ DIRS) :
    MidInv w at_ sx sy gx gy cur (expandOne w gx gy at_ cur st d) ∧
    propD w at_ gx gy cur (expandOne w gx gy at_ cur st d) d := by
  rcases expandOne_cases w gx gy at_ cur st d with
    ⟨he, hno⟩ | ⟨vx, vy, hc, hunvis, hpass, ⟨cv0, hg0, hle0⟩, he⟩ |
    ⟨vx, vy, hc, hunvis, hpass, hlt, he⟩
  · rw [he]
    refine ⟨hM, ?_⟩
    intro vx vy hcc hp hu
    exact (hno vx vy hcc hp hu).elim
  · rw [he]
    refine ⟨hM, ?_⟩
    intro vx' vy' hc' hp' hu'
    rw [hc] at hc'
    simp only [Option.some.injEq, Prod.mk.injEq] at hc'
    obtain ⟨h1, h2⟩ := hc'
    subst h1
    subst h2
    obtain ⟨-, -, -, -, -, hsc⟩ := cellOf_facts hd hc
    refine ⟨cv0, hg0, ?_⟩
    rw [hsc]
    unfold mcost at hle0
    omega
  · obtain ⟨hbx, hby, hvne, -, -, hsc⟩ := cellOf_facts hd hc
    have hsc' : stepCost (cur.x, cur.y) (vx, vy) = mcost d := hsc
    have hnbr : (vx, vy) ∈ neighbors (cur.x, cur.y) := mem_neighbors_iff.2 ⟨d, hd, hc⟩
    have hcurne : ¬ (cur.x = vx ∧ cur.y = vy) := by
      intro hcc
      exact hvne (Prod.ext hcc.1.symm hcc.2.symm)
    have hnotstart : ¬ (sx = vx ∧ sy = vy) := by
      rintro ⟨rfl, rfl⟩
      rw [hM.g_start] at hlt
      simp [ltG] at hlt
    have hmc14 : mcost d ≤ 14 := by
      unfold mcost
      split <;> omega
    rw [he]
    constructor
    constructor
    · simp only []
      rw [if_neg hnotstart]
      exact hM.g_start
    · intro x y c hg
      simp only [] at hg
      split at hg
      · next hxy =>
        obtain ⟨rfl, rfl⟩ := hxy
        simp only [Option.some.injEq] at hg
        obtain ⟨p, hp, hpc⟩ := hM.g_reach cur.x cur.y cur.cost hM.cur_g
        refine ⟨p ++ [(x, y)], ?_, ?_⟩
        · exact chain_append.2 ⟨(cur.x, cur.y), hp, ⟨⟨hnbr, hpass⟩, rfl⟩⟩
        · rw [pathCost_append [(x, y)] hp]
          simp only [pathCost]
          rw [hsc']
          omega
      · exact hM.g_reach x y c hg
    · intro e he'
      rcases List.mem_append.1 he' with he' | he'
      · obtain ⟨c, hg, hce, hprio⟩ := hM.entries e he'
        by_cases hev : e.x = vx ∧ e.y = vy
        · refine ⟨cur.cost + mcost d, ?_, ?_, hprio⟩
          · simp only []
            rw [if_pos hev]
          · rw [hev.1, hev.2] at hg
            rw [hg] at hlt
            simp only [ltG, decide_eq_true_eq] at hlt
            omega
        · refine ⟨c, ?_, hce, hprio⟩
          simp only []
          rw [if_neg hev]
          exact hg
      · simp only [List.mem_singleton] at he'
        subst he'
        refine ⟨cur.cost + mcost d, ?_, le_refl _, rfl⟩
        simp
    · intro x y c hu hg
      simp only [] at hg
      split at hg
      · next hxy =>
        obtain ⟨rfl, rfl⟩ := hxy
        simp only [Option.some.injEq] at hg
        refine ⟨⟨x, y, cur.cost + mcost d,
          cur.cost + mcost d + heuristic x y gx gy⟩, ?_, rfl, rfl, hg⟩
        simp only []
        exact List.mem_append.2 (Or.inr (List.mem_singleton.2 rfl))
      · obtain ⟨e, he', hex, hey, hec⟩ := hM.witness x y c hu hg
        exact ⟨e, List.mem_append.2 (Or.inl he'), hex, hey, hec⟩
    · intro x y hv
      simp only [] at hv ⊢
      have hxy : ¬ (x = vx ∧ y = vy) := by
        rintro ⟨rfl, rfl⟩
        rw [hunvis] at hv
        exact absurd hv (by simp)
      rw [if_neg hxy]
      exact hM.vis_opt x y hv
    · intro x y hv hne v hvn hvp hvu
      simp only [] at hv hvu ⊢
      have hxyne : ¬ (x = vx ∧ y = vy) := by
        rintro ⟨rfl, rfl⟩
        rw [hunvis] at hv
        exact absurd hv (by simp)
      obtain ⟨cu, cv', hgu, hgv, hle⟩ := hM.vis_relax x y hv hne v hvn hvp hvu
      by_cases hveq : v.1 = vx ∧ v.2 = vy
      · refine ⟨cu, cur.cost + mcost d, ?_, ?_, ?_⟩
        · rw [if_neg hxyne]
          exact hgu
        · rw [if_pos hveq]
        · rw [hveq.1, hveq.2] at hgv
          rw [hgv] at hlt
          simp only [ltG, decide_eq_true_eq] at hlt
          omega
      · refine ⟨cu, cv', ?_, ?_, hle⟩
        · rw [if_neg hxyne]
          exact hgu
        · rw [if_neg hveq]
          exact hgv
    · intro x y u hcf
      simp only [] at hcf ⊢
      by_cases hxy : x = vx ∧ y = vy
      · rw [if_pos hxy] at hcf
        simp only [Option.some.injEq] at hcf
        obtain ⟨rfl, rfl⟩ := hxy
        subst hcf
        refine ⟨hM.cur_vis, hnbr, hpass, cur.cost, cur.cost + mcost d, ?_, ?_, ?_⟩
        · rw [if_neg hcurne]
          exact hM.cur_g
        · rw [if_pos ⟨rfl, rfl⟩]
        · rw [hsc']
      · rw [if_neg hxy] at hcf
        obtain ⟨h1, h2, h3, cu, cv', hgu, hgv, hceq⟩ := hM.cf_chain x y u hcf
        have hune : ¬ (u.1 = vx ∧ u.2 = vy) := by
          rintro ⟨hu1, hu2⟩
          rw [hu1, hu2] at h1
          rw [hunvis] at h1
          exact absurd h1 (by simp)
        refine ⟨h1, h2, h3, cu, cv', ?_, ?_, hceq⟩
        · rw [if_neg hune]
          exact hgu
        · rw [if_neg hxy]
          exact hgv
    · intro x y c hg
      simp only [] at hg ⊢
      by_cases hxy : x = vx ∧ y = vy
      · refine Or.inr ?_
        rw [if_pos hxy]
        rfl
      · rw [if_neg hxy] at hg
        rcases hM.g_cf x y c hg with h | h
        · exact Or.inl h
        · refine Or.inr ?_
          rw [if_neg hxy]
          exact h
    · exact hM.goal_unvis
    · exact hM.searched_le
    · intro x y c hg
      simp only [] at hg
      split at hg
      · simp only [Option.some.injEq] at hg
        have := hM.cur_bound
        show c ≤ 14 * st.searched
        omega
      · exact hM.g_bound x y c hg
    · exact hM.cur_vis
    · simp only []
      rw [if_neg hcurne]
      exact hM.cur_g
    · exact hM.cur_min
    · exact hM.cur_bound
    · intro vx' vy' hc' hp' hu'
      rw [hc] at hc'
      simp only [Option.some.injEq, Prod.mk.injEq] at hc'
      obtain ⟨h1, h2⟩ := hc'
      subst h1
      subst h2
      refine ⟨cur.cost + mcost d, ?_, ?_⟩
      · simp
      · rw [hsc']

/-- Established relaxation obligations survive later expansion steps. -/
theorem propD_mono {w : World} {at_ : Bool} {gx gy : Nat} {cur : Node}
    {st : SearchState} {d0 d : Int × Int} (hd : d ∈ DIRS)
    (hp : propD w at_ gx gy cur st d0) :
    propD w at_ gx gy cur (expandOne w gx gy at_ cur st d) d0 := by
  rcases expandOne_cases w gx gy at_ cur st d with
    ⟨he, -⟩ | ⟨vx, vy, hc, hu, hps, hex, he⟩ | ⟨vx, vy, hc, hu, hps, hlt, he⟩
  · rw [he]
    exact hp
  · rw [he]
    exact hp
  · rw [he]
    intro vx0 vy0 hc0 hp0 hu0
    simp only [] at hu0 ⊢
    by_cases hveq : vx0 = vx ∧ vy0 = vy
    · obtain ⟨rfl, rfl⟩ := hveq
      obtain ⟨-, -, -, -, -, hsc⟩ := cellOf_facts hd hc
      refine ⟨cur.cost + mcost d, ?_, ?_⟩
      · rw [if_pos ⟨rfl, rfl⟩]
      · rw [hsc]
        unfold mcost
        omega
    · obtain ⟨cv, hg, hle⟩ := hp vx0 vy0 hc0 hp0 hu0
      refine ⟨cv, ?_, hle⟩
      rw [if_neg hveq]
      exact hg

/-- Established relaxation obligations survive a whole expansion fold. -/
theorem propD_mono_fold {w : World} {at_ : Bool} {gx gy : Nat} {cur : Node}
    {d0 : Int × Int} :
    ∀ (ds : List (Int × Int)) (st : SearchState), (∀ d ∈ ds, d ∈ DIRS) →
      propD w at_ gx gy cur st d0 →
      propD w at_ gx gy cur (ds.foldl (expandOne w gx gy at_ cur) st) d0 := by
  intro ds
  induction ds with
  | nil =>
    intro st _ hp
    exact hp
  | cons d ds ih =>
    intro st hsub hp
    simp only [List.foldl_cons]
    exact ih _ (fun d' hd' => hsub d' (List.mem_cons_of_mem d hd'))
      (propD_mono (hsub d (List.mem_cons_self d ds)) hp)

/-- Folding the expansion over a sublist of the offsets preserves the
mid-expansion invariant and yields the relaxation obligation of every offset
in the list. -/
theorem expandFold_mid {w : World} {at_ : Bool} {sx sy gx gy : Nat} {cur : Node} :
    ∀ (ds : List (Int × Int)) (st : SearchState), (∀ d ∈ ds, d ∈ DIRS) →
      MidInv w at_ sx sy gx gy cur st →
      MidInv w at_ sx sy gx gy cur (ds.foldl (expandOne w gx gy at_ cur) st) ∧
      ∀ d ∈ ds, propD w at_ gx gy cur (ds.foldl (expandOne w gx gy at_ cur) st) d := by
  intro ds
  induction ds with
  | nil =>
    intro st _ hM
    exact ⟨hM, by simp⟩
  | cons d ds ih =>
    intro st hsub hM
    have hd : d ∈ DIRS := hsub d (List.mem_cons_self d ds)
    have hsub' : ∀ d' ∈ ds, d' ∈ DIRS :=
      fun d' hd' => hsub d' (List.mem_cons_of_mem d hd')
    obtain ⟨hM1, hp1⟩ := MidInv_relax hM hd
    simp only [List.foldl_cons]
    obtain ⟨hMf, hpf⟩ := ih _ hsub' hM1
    refine ⟨hMf, ?_⟩
    intro d0 hd0
    rcases List.mem_cons.1 hd0 with rfl | hd0
    · exact propD_mono_fold ds _ hsub' hp1
    · exact hpf d0 hd0

/-- Exiting the expansion phase: the mid-expansion invariant together with the
relaxation obligations of all eight offsets restores the full loop invariant. -/
theorem mid_to_AInv {w : World} {at_ : Bool} {sx sy gx gy : Nat} {cur : Node}
    {st : SearchState} (hM : MidInv w at_ sx sy gx gy cur st)
    (hp : ∀ d ∈ DIRS, propD w at_ gx gy cur st d) :
    AInv w at_ sx sy gx gy st := by
  constructor
  · exact hM.g_start
  · exact hM.g_reach
  · exact hM.entries
  · exact hM.witness
  · exact hM.vis_opt
  · intro x y hv v hvn hvp hvu
    by_cases hxy : x = cur.x ∧ y = cur.y
    · obtain ⟨rfl, rfl⟩ := hxy
      obtain ⟨d, hd, hcell⟩ := mem_neighbors_iff.1 hvn
      obtain ⟨cv, hgv, hle⟩ := hp d hd v.1 v.2 hcell hvp hvu
      exact ⟨cur.cost, cv, hM.cur_g, hgv, hle⟩
    · exact hM.vis_relax x y hv hxy v hvn hvp hvu
  · exact hM.cf_chain
  · exact hM.g_cf
  · exact hM.goal_unvis
  · exact hM.searched_le
  · exact hM.g_bound

/-- Dropping an already-visited popped node preserves the loop invariant. -/
theorem AInv_skip {w : World} {at_ : Bool} {sx sy gx gy : Nat}
    {st : SearchState} (hInv : AInv w at_ sx sy gx gy st)
    {e : Node} {rest : List Node}
    (hpop : popMin st.openList = some (e, rest))
    (hvis : st.visited e.x e.y = true) :
    AInv w at_ sx sy gx gy { st with openList := rest } := by
  constructor
  · exact hInv.g_start
  · exact hInv.g_reach
  · intro e' he'
    exact hInv.entries e' (popMin_rest_mem hpop he')
  · intro x y c hu hg
    obtain ⟨e', he', hex, hey, hec⟩ := hInv.witness x y c hu hg
    refine ⟨e', ?_, hex, hey, hec⟩
    rcases List.mem_cons.1 ((popMin_perm hpop).mem_iff.1 he') with rfl | h
    · rw [hex, hey] at hvis
      rw [hu] at hvis
      exact absurd hvis (by simp)
    · exact h
  · exact hInv.vis_opt
  · exact hInv.vis_relax
  · exact hInv.cf_chain
  · exact hInv.g_cf
  · exact hInv.goal_unvis
  · exact hInv.searched_le
  · exact hInv.g_bound

/-- The A* main loop, started in a state satisfying the loop invariant,
returns only chains from start to goal of minimum weighted cost. -/
theorem astarLoop_optimal {w : World} {at_ : Bool} {sx sy gx gy : Nat} :
    ∀ (fuel : Nat) (st : SearchState), AInv w at_ sx sy gx gy st →
      ∀ p n, astarLoop w sx sy gx gy at_ fuel st = (some p, n) →
        chain w at_ gx gy (sx, sy) p (gx, gy) ∧
        ∀ q, chain w at_ gx gy (sx, sy) q (gx, gy) →
          pathCost (sx, sy) p ≤ pathCost (sx, sy) q := by
  intro fuel
  induction fuel with
  | zero =>
    intro st hInv p n h
    simp [astarLoop] at h
  | succ fuel ih =>
    intro st hInv p n h
    unfold astarLoop at h
    cases hpop : popMin st.openList with
    | none =>
      rw [hpop] at h
      simp at h
    | some er =>
      obtain ⟨e, rest⟩ := er
      rw [hpop] at h
      dsimp only at h
      by_cases hgoal : e.x = gx ∧ e.y = gy
      · rw [if_pos hgoal] at h
        simp only [Prod.mk.injEq, Option.some.injEq] at h
        have hunvis : st.visited e.x e.y = false := by
          rw [hgoal.1, hgoal.2]
          exact hInv.goal_unvis
        obtain ⟨hg, hreach, hmin⟩ := pop_exact hInv hpop hunvis
        rw [hgoal.1, hgoal.2] at hg
        have hbound : e.cost ≤ 70000 := by
          have h1 := hInv.g_bound gx gy e.cost hg
          have h2 := hInv.searched_le
          unfold max_search at h2
          omega
        have hfuel : e.cost + 10 ≤ 10 * (MAP_WIDTH * MAP_HEIGHT + 1) := by
          have : MAP_WIDTH * MAP_HEIGHT + 1 = 45001 := by decide
          omega
        obtain ⟨hch, hcost⟩ := reconstruct_ok hInv e.cost gx gy
          (MAP_WIDTH * MAP_HEIGHT + 1) hg hfuel
        rw [← h.1]
        unfold reconstruct_path
        refine ⟨hch, ?_⟩
        intro q hq
        rw [hcost]
        have hgx : (e.x, e.y) = ((gx : Nat), (gy : Nat)) :=
          Prod.ext hgoal.1 hgoal.2
        have := hmin (pathCost (sx, sy) q)
        rw [hgx] at this
        exact this ⟨q, hq, rfl⟩
      · rw [if_neg hgoal] at h
        split at h
        · next hvis =>
          exact ih { st with openList := rest } (AInv_skip hInv hpop hvis) p n h
        · next hvis =>
          split at h
          next hbud => simp at h
          next hbud =>
            have hbud2 : ¬ max_search < st.searched + 1 := hbud
            have hbud' : st.searched + 1 ≤ max_search := by omega
            have hunvis : st.visited e.x e.y = false := by
              cases hv : st.visited e.x e.y
              · rfl
              · exact absurd hv hvis
            have hmid := AInv_to_mid hInv hpop hunvis hgoal hbud'
            obtain ⟨hMf, hpf⟩ := expandFold_mid DIRS _ (fun d hd => hd) hmid
            exact ih _ (mid_to_AInv hMf hpf) p n h

/-- C1: every path returned by find_path is a valid 8-connected path from
start to goal through passable cells (walkable, or Tree when allow_tree, or
the goal tile), and its weighted cost — 10 per orthogonal step, 14 per
diagonal step — is minimal among all such paths. -/
theorem astar_optimal (w : World) (sx sy gx gy : Nat) (allow_tree : Bool)
    (p : List (Nat × Nat))
    (h : find_path w sx sy gx gy allow_tree = some p) :
    chain w allow_tree gx gy (sx, sy) p (gx, gy) ∧
    ∀ q, chain w allow_tree gx gy (sx, sy) q (gx, gy) →
      pathCost (sx, sy) p ≤ pathCost (sx, sy) q := by
  unfold find_path find_path_run at h
  split at h
  · next hse =>
    simp only [Prod.fst, Option.some.injEq] at h
    subst h
    refine ⟨?_, ?_⟩
    · rw [chain_nil]
      exact Prod.ext hse.1 hse.2
    · intro q hq
      simp [pathCost]
  · next hse =>
    cases hrun : astarLoop w sx sy gx gy allow_tree astarFuel
      (initState sx sy gx gy) with
    | mk res n =>
      rw [hrun] at h
      cases res with
      | none => simp at h
      | some q =>
        simp only [Option.some.injEq] at h
        subst h
        exact astarLoop_optimal astarFuel _ (AInv_init w allow_tree sx sy gx gy)
          q n hrun

/-- C1 witness: the degenerate search from a cell to itself returns the empty
path, which is a valid chain of cost zero, minimal among all chains. -/
theorem astar_optimal_witness :
    find_path grassWorld 5 7 5 7 false = some [] ∧
    (chain grassWorld false 5 7 (5, 7) [] (5, 7) ∧
      ∀ q, chain grassWorld false 5 7 (5, 7) q (5, 7) →
        pathCost (5, 7) [] ≤ pathCost (5, 7) q) :=
  ⟨rfl, astar_optimal grassWorld 5 7 5 7 false [] rfl⟩




/-! ## C10: the position invariant -/

theorem walkKeep_refl (w : World) : walkKeep w w := fun _ h => h

theorem walkKeep_trans {w1 w2 w3 : World} (h1 : walkKeep w1 w2)
    (h2 : walkKeep w2 w3) : walkKeep w1 w3 := fun c h => h2 c (h1 c h)

theorem is_walkable_bounds {w : World} {x y : Nat} (h : w.is_walkable x y = true) :
    x < MAP_WIDTH ∧ y < MAP_HEIGHT := by
  unfold World.is_walkable at h
  split at h
  · exact absurd h (by simp)
  · next hb =>
    push_neg at hb
    omega

theorem is_walkable_of_get {w : World} {x y : Nat} {t : Terrain}
    (hg : w.get x y = t) (hx : x < MAP_WIDTH) (hy : y < MAP_HEIGHT)
    (ht : t.walkable = true) : w.is_walkable x y = true := by
  unfold World.is_walkable
  rw [if_neg (by simp only [not_or, Nat.not_le]; exact ⟨hx, hy⟩)]
  rw [hg]
  exact ht

theorem is_walkable_set {w : World} {x y u v : Nat} {t : Terrain}
    (ht : t.walkable = true) (h : w.is_walkable u v = true) :
    (w.set x y t).is_walkable u v = true := by
  unfold World.is_walkable World.get World.set at *
  split at h
  · exact absurd h (by simp)
  · next hb =>
    rw [if_neg hb]
    simp only []
    split
    · exact ht
    · exact h

/-- Writing a walkable terrain to a non-Tree tile preserves every standing
position. -/
theorem walkKeep_set_ne_tree {w : World} {x y : Nat} {t : Terrain}
    (ht : t.walkable = true) (hnt : w.get x y ≠ Terrain.Tree) :
    walkKeep w (w.set x y t) := by
  rintro ⟨c1, c2⟩ h
  by_cases hc : c1 = x ∧ c2 = y
  · obtain ⟨rfl, rfl⟩ := hc
    rcases h with h | h
    · exact Or.inl (is_walkable_set ht h)
    · exact absurd h hnt
  · rcases h with h | h
    · refine Or.inl ?_
      unfold World.is_walkable World.get World.set at *
      split at h
      · exact absurd h (by simp)
      · next hb =>
        rw [if_neg hb]
        simp only []
        rw [if_neg hc]
        exact h
    · refine Or.inr ?_
      unfold World.get World.set at *
      simp only []
      rw [if_neg hc]
      exact h

theorem walkKeep_deplete (w : World) (x y tk : Nat) :
    walkKeep w (w.deplete_bush x y tk) := by
  unfold World.deplete_bush
  split
  · next hb =>
    intro c h
    exact @walkKeep_set_ne_tree w x y Terrain.DepletedBush rfl
      (by simp [World.get, hb]) c h
  · exact walkKeep_refl w

theorem walkKeep_stockpile (w : World) (n : Nat) :
    walkKeep w { w with food_stockpile := n } := fun _ h => h

theorem OrcInv_mono {w w' : World} {o : Orc} (hk : walkKeep w w')
    (h : OrcInv w o) : OrcInv w' o :=
  ⟨hk _ h.1, fun c hc => hk c (h.2 c hc)⟩

/-- Fold preservation of a predicate on the accumulator. -/
theorem foldl_pres {α β : Type} (f : α → β → α) (P : α → Prop) :
    ∀ (l : List β) (a : α), (∀ x b, b ∈ l → P x → P (f x b)) → P a →
      P (l.foldl f a) := by
  intro l
  induction l with
  | nil =>
    intro a _ h
    exact h
  | cons b bs ih =>
    intro a hstep h
    simp only [List.foldl_cons]
    exact ih _ (fun x b' hb' => hstep x b' (List.mem_cons_of_mem b hb'))
      (hstep a b (List.mem_cons_self b bs) h)

/-- Every candidate kept by the nearest-scan step holds the scanned terrain
and is in bounds. -/
theorem nearestStep_sound {w : World} {fx fy : Nat} {t : Terrain} {y x : Nat}
    {best : Option (Nat × Nat × Nat)}
    (hx : x < MAP_WIDTH) (hy : y < MAP_HEIGHT)
    (hb : ∀ b, best = some b →
      w.get b.1 b.2.1 = t ∧ b.1 < MAP_WIDTH ∧ b.2.1 < MAP_HEIGHT) :
    ∀ b, nearestStep w fx fy t y best x = some b →
      w.get b.1 b.2.1 = t ∧ b.1 < MAP_WIDTH ∧ b.2.1 < MAP_HEIGHT := by
  intro b h
  cases best with
  | none =>
    unfold nearestStep at h
    split at h
    · next htile =>
      simp only [Option.some.injEq] at h
      subst h
      exact ⟨htile, hx, hy⟩
    · cases h
  | some b0 =>
    unfold nearestStep at h
    split at h
    · next htile =>
      simp only [] at h
      split at h
      · simp only [Option.some.injEq] at h
        subst h
        exact ⟨htile, hx, hy⟩
      · exact hb b h
    · exact hb b h

theorem nearestRow_sound {w : World} {fx fy : Nat} {t : Terrain} {y : Nat}
    {best : Option (Nat × Nat × Nat)} (hy : y < MAP_HEIGHT)
    (hb : ∀ b, best = some b →
      w.get b.1 b.2.1 = t ∧ b.1 < MAP_WIDTH ∧ b.2.1 < MAP_HEIGHT) :
    ∀ b, nearestRow w fx fy t best y = some b →
      w.get b.1 b.2.1 = t ∧ b.1 < MAP_WIDTH ∧ b.2.1 < MAP_HEIGHT := by
  unfold nearestRow
  exact foldl_pres (nearestStep w fx fy t y)
    (fun acc => ∀ b, acc = some b →
      w.get b.1 b.2.1 = t ∧ b.1 < MAP_WIDTH ∧ b.2.1 < MAP_HEIGHT)
    (List.range MAP_WIDTH) best
    (fun acc x hxmem hacc =>
      nearestStep_sound (List.mem_range.1 hxmem) hy hacc)
    hb

/-- A nearest-scan hit holds the scanned terrain and is in bounds. -/
theorem find_nearest_sound {w : World} {fx fy : Nat} {t : Terrain} {p : Nat × Nat}
    (h : w.find_nearest fx fy t = some p) :
    w.get p.1 p.2 = t ∧ p.1 < MAP_WIDTH ∧ p.2 < MAP_HEIGHT := by
  unfold World.find_nearest at h
  rcases Option.map_eq_some'.1 h with ⟨b, hbf, hpb⟩
  have hall := foldl_pres (nearestRow w fx fy t)
    (fun acc => ∀ b, acc = some b →
      w.get b.1 b.2.1 = t ∧ b.1 < MAP_WIDTH ∧ b.2.1 < MAP_HEIGHT)
    (List.range MAP_HEIGHT) none
    (fun acc y hymem hacc => nearestRow_sound (List.mem_range.1 hymem) hacc)
    (fun b hb => by cases hb)
  have := hall b hbf
  rw [← hpb]
  exact this

/-- Every candidate kept by the water-adjacency step is walkable. -/
theorem waterAdjStep_sound {w : World} {fx fy wx wy : Nat}
    {best : Option (Nat × Nat × Nat)}
    (hb : ∀ b, best = some b → w.is_walkable b.1 b.2.1 = true) {d : Int × Int} :
    ∀ b, waterAdjStep w fx fy wx wy best d = some b →
      w.is_walkable b.1 b.2.1 = true := by
  intro b h
  cases best with
  | none =>
    unfold waterAdjStep at h
    simp only [] at h
    split at h
    · next hwk =>
      simp only [Option.some.injEq] at h
      subst h
      exact hwk
    · cases h
  | some b0 =>
    unfold waterAdjStep at h
    simp only [] at h
    split at h
    · next hwk =>
      split at h
      · simp only [Option.some.injEq] at h
        subst h
        exact hwk
      · exact hb b h
    · exact hb b h

/-- The water-adjacent target returned to a thirsty orc is walkable. -/
theorem find_water_adjacent_walkable {w : World} {fx fy : Nat} {p : Nat × Nat}
    (h : w.find_water_adjacent fx fy = some p) :
    w.is_walkable p.1 p.2 = true := by
  unfold World.find_water_adjacent at h
  cases hn : w.find_nearest fx fy Terrain.Water with
  | none =>
    rw [hn] at h
    cases h
  | some wp =>
    obtain ⟨wx, wy⟩ := wp
    rw [hn] at h
    simp only [] at h
    rcases Option.map_eq_some'.1 h with ⟨b, hbf, hpb⟩
    have hall := foldl_pres (waterAdjStep w fx fy wx wy)
      (fun acc => ∀ b, acc = some b → w.is_walkable b.1 b.2.1 = true)
      [((0 : Int), (1 : Int)), (0, -1), (1, 0), (-1, 0)] none
      (fun acc d _ hacc => waterAdjStep_sound hacc)
      (fun b hb => by cases hb)
    have := hall b hbf
    rw [← hpb]
    exact this

/-- The meat-rack tile, when present, is walkable. -/
theorem meat_rack_walkable {w : World} {p : Nat × Nat}
    (h : w.meat_rack_pos = some p) : w.is_walkable p.1 p.2 = true := by
  unfold World.meat_rack_pos at h
  simp only [] at h
  split at h
  · next hc =>
    simp only [Option.some.injEq] at h
    subst h
    exact @is_walkable_of_get w _ _ Terrain.MeatRack hc.2.2 hc.1 hc.2.1 rfl
  · cases h

/-- The rest spot chosen near a walkable campfire tile is walkable. -/
theorem find_spot_near_walkable {w : World} {cx cy : Nat}
    (hc : w.is_walkable cx cy = true) :
    ∀ (n : Nat) (r : Rng),
      w.is_walkable (find_spot_near cx cy w n r).1.1
        (find_spot_near cx cy w n r).1.2 = true := by
  intro n
  induction n with
  | zero =>
    intro r
    exact hc
  | succ n ih =>
    intro r
    unfold find_spot_near
    rcases hd1 : r.gen_range_int (-2) 2 with ⟨d1, r1⟩
    dsimp only
    rcases hd2 : r1.gen_range_int (-2) 2 with ⟨d2, r2⟩
    dsimp only
    split
    · next hwk => exact hwk
    · exact ih r2

/-- Every candidate kept by the food-target fold is walkable. -/
theorem food_best_sound (o : Orc) (w : World) :
    ∀ (l : List (Option (Nat × Nat))) (acc : Option (Nat × Nat × Nat)),
      (∀ e ∈ l, ∀ v, e = some v → w.is_walkable v.1 v.2 = true) →
      (∀ b, acc = some b → w.is_walkable b.1 b.2.1 = true) →
      ∀ b,
        l.foldl
          (fun best target? =>
            match target? with
            | none => best
            | some target =>
              let dist := abs_diff o.x target.1 + abs_diff o.y target.2
              match best with
              | none => some (target.1, target.2, dist)
              | some b => if dist < b.2.2 then some (target.1, target.2, dist)
                else best)
          acc = some b →
        w.is_walkable b.1 b.2.1 = true := by
  intro l acc hl hacc
  refine foldl_pres _
    (fun acc => ∀ b, acc = some b → w.is_walkable b.1 b.2.1 = true) l acc ?_ hacc
  intro x e he hx b h
  cases e with
  | none => exact hx b h
  | some target =>
    have hv := hl (some target) he target rfl
    cases x with
    | none =>
      dsimp only at h
      simp only [Option.some.injEq] at h
      subst h
      exact hv
    | some b0 =>
      dsimp only at h
      split at h
      · simp only [Option.some.injEq] at h
        subst h
        exact hv
      · exact hx b h

/-- A food target of the GoingTo kind is always a walkable tile. -/
theorem find_food_target_goto {o : Orc} {w : World} {animals : List Animal}
    {tx ty : Nat} {s : String}
    (h : o.find_food_target w animals = some (Activity.GoingTo tx ty s)) :
    w.is_walkable tx ty = true := by
  unfold Orc.find_food_target at h
  simp only [] at h
  have hl : ∀ e ∈ [w.find_nearest o.x o.y Terrain.Bush,
      w.find_nearest o.x o.y Terrain.Food, w.find_nearest o.x o.y Terrain.Tree],
      ∀ v, e = some v → w.is_walkable v.1 v.2 = true := by
    intro e he v hv
    rcases List.mem_cons.1 he with rfl | he
    · obtain ⟨hg, hx, hy⟩ := find_nearest_sound hv
      exact is_walkable_of_get hg hx hy rfl
    rcases List.mem_cons.1 he with rfl | he
    · obtain ⟨hg, hx, hy⟩ := find_nearest_sound hv
      exact is_walkable_of_get hg hx hy rfl
    rcases List.mem_cons.1 he with rfl | he
    · obtain ⟨hg, hx, hy⟩ := find_nearest_sound hv
      exact is_walkable_of_get hg hx hy rfl
    · cases he
  split at h
  · next t heq =>
    simp only [Option.some.injEq] at h
    subst h
    split at heq
    · rcases Option.map_eq_some'.1 heq with ⟨p, hp, ht⟩
      simp only [Activity.GoingTo.injEq] at ht
      obtain ⟨ht1, ht2, -⟩ := ht
      rw [← ht1, ← ht2]
      exact meat_rack_walkable hp
    · cases heq
  · next heq =>
    split at h
    · next idx animal hna =>
      split at h
      · simp at h
      · rcases Option.map_eq_some'.1 h with ⟨b, hb, hres⟩
        simp only [Activity.GoingTo.injEq] at hres
        obtain ⟨rfl, rfl, -⟩ := hres
        exact food_best_sound o w _ _ hl (fun b hb => by cases hb) b hb
    · next hna =>
      rcases Option.map_eq_some'.1 h with ⟨b, hb, hres⟩
      simp only [Activity.GoingTo.injEq] at hres
      obtain ⟨rfl, rfl, -⟩ := hres
      exact food_best_sound o w _ _ hl (fun b hb => by cases hb) b hb

/-- Every waypoint of a valid chain is passable. -/
theorem chain_passable {w : World} {b : Bool} {gx gy : Nat} :
    ∀ {p : List (Nat × Nat)} {s e : Nat × Nat},
      chain w b gx gy s p e → ∀ c ∈ p, passableCell w b gx gy c := by
  intro p
  induction p with
  | nil =>
    intro s e h c hc
    cases hc
  | cons d q ih =>
    intro s e h c hc
    obtain ⟨⟨hn, hp⟩, hrest⟩ := h
    rcases List.mem_cons.1 hc with rfl | hc
    · exact hp
    · exact ih hrest c hc

/-- A passable cell is walkable-or-Tree provided the goal cell is. -/
theorem passable_posOk {w : World} {b : Bool} {gx gy : Nat} {c : Nat × Nat}
    (h : passableCell w b gx gy c) (hg : posOk w (gx, gy)) : posOk w c := by
  rcases h with ⟨h1, h2⟩ | h | ⟨-, h⟩
  · have hc : c = (gx, gy) := Prod.ext h1 h2
    rw [hc]
    exact hg
  · exact Or.inl h
  · exact Or.inr h

/-- Any path actually returned by the pathfinder is a valid chain from start
to goal. -/
theorem find_path_chain {w : World} {sx sy gx gy : Nat} {b : Bool}
    {p : List (Nat × Nat)} (h : find_path w sx sy gx gy b = some p) :
    chain w b gx gy (sx, sy) p (gx, gy) := by
  unfold find_path find_path_run at h
  split at h
  · next hse =>
    simp only [Prod.fst, Option.some.injEq] at h
    subst h
    rw [chain_nil]
    exact Prod.ext hse.1 hse.2
  · cases hrun : astarLoop w sx sy gx gy b astarFuel (initState sx sy gx gy) with
    | mk res n =>
      rw [hrun] at h
      cases res with
      | none => simp at h
      | some q =>
        simp only [Option.some.injEq] at h
        subst h
        exact (astarLoop_optimal astarFuel _ (AInv_init w b sx sy gx gy) q n hrun).1

/-- Planning a path toward a walkable-or-Tree goal yields only
walkable-or-Tree waypoints. -/
theorem plan_path_inv {o : Orc} {w : World} {tx ty : Nat} {b : Bool}
    (hpos : posOk w (o.x, o.y)) (hgoal : posOk w (tx, ty)) :
    OrcInv w (o.plan_path tx ty w b) := by
  unfold Orc.plan_path
  cases hfp : find_path w o.x o.y tx ty b with
  | none => exact ⟨hpos, by simp⟩
  | some p =>
    refine ⟨hpos, ?_⟩
    intro c hc
    exact passable_posOk (chain_passable (find_path_chain hfp) c hc) hgoal

theorem go_to_inv {o : Orc} {w : World} {x y : Nat} {s : String}
    (hpos : posOk w (o.x, o.y)) (hxy : posOk w (x, y)) :
    OrcInv w (o.go_to x y s w) := by
  unfold Orc.go_to
  have h2 := @plan_path_inv o w x y
    (w.get x y == Terrain.Tree || w.get x y == Terrain.Bush) hpos hxy
  exact ⟨h2.1, h2.2⟩

theorem follow_path_inv {w : World} {o : Orc} (h : OrcInv w o) :
    OrcInv w o.follow_path.1 := by
  unfold Orc.follow_path
  cases hc : o.path[o.path_step]? with
  | none => exact h
  | some c => exact ⟨h.2 c (List.getElem?_mem hc), h.2⟩

theorem tryCandidates_inv {w : World} {o : Orc} (h : OrcInv w o) :
    ∀ l, OrcInv w (tryCandidates o w l) := by
  intro l
  induction l with
  | nil => exact h
  | cons c cs ih =>
    unfold tryCandidates
    split
    · exact ih
    · simp only []
      split
      · next hwk =>
        refine ⟨?_, h.2⟩
        rw [Bool.or_eq_true] at hwk
        rcases hwk with h1 | h1
        · exact Or.inl h1
        · exact Or.inr (by simpa using h1)
      · exact ih

theorem greedy_inv {w : World} {o : Orc} {tx ty : Nat} {r : Rng}
    (h : OrcInv w o) : OrcInv w (o.move_toward_greedy tx ty w r).1 := by
  unfold Orc.move_toward_greedy
  exact tryCandidates_inv h _

theorem set_activity_inv {w : World} {o : Orc} {act : Activity}
    (h : OrcInv w o)
    (hg : ∀ tx ty s, act = Activity.GoingTo tx ty s →
      w.is_walkable tx ty = true) :
    OrcInv w (o.set_activity_with_path act w) := by
  unfold Orc.set_activity_with_path
  cases act with
  | GoingTo tx ty s =>
    have h2 := @plan_path_inv o w tx ty
      (w.get tx ty == Terrain.Tree || w.get tx ty == Terrain.Bush)
      h.1 (Or.inl (hg tx ty s rfl))
    exact ⟨h2.1, h2.2⟩
  | Hunting idx => exact ⟨h.1, fun c hc => absurd hc (List.not_mem_nil c)⟩
  | Idle => exact ⟨h.1, h.2⟩
  | Eating => exact ⟨h.1, h.2⟩
  | Sleeping => exact ⟨h.1, h.2⟩
  | Drinking => exact ⟨h.1, h.2⟩
  | CarryingMeat => exact ⟨h.1, h.2⟩

theorem arrive_inv {w : World} {o : Orc} {log : EventLog} {tick : Nat}
    (h : OrcInv w o) :
    OrcInv (o.arrive_at_destination w log tick).2.1
      (o.arrive_at_destination w log tick).1 ∧
    walkKeep w (o.arrive_at_destination w log tick).2.1 := by
  unfold Orc.arrive_at_destination
  simp only []
  split_ifs with h1 h2 h3 h4 h5
  · have hk := walkKeep_deplete w o.x o.y tick
    exact ⟨OrcInv_mono hk ⟨h.1, h.2⟩, hk⟩
  · have hk := @walkKeep_set_ne_tree w o.x o.y Terrain.Grass rfl
      (by rw [h2]; decide)
    exact ⟨OrcInv_mono hk ⟨h.1, h.2⟩, hk⟩
  · exact ⟨⟨h.1, h.2⟩, walkKeep_refl w⟩
  · have hk := walkKeep_stockpile w (w.food_stockpile - 1)
    exact ⟨OrcInv_mono hk ⟨h.1, h.2⟩, hk⟩
  · exact ⟨⟨h.1, h.2⟩, walkKeep_refl w⟩
  · exact ⟨⟨h.1, h.2⟩, walkKeep_refl w⟩


theorem updateNeeds_inv {w : World} {o : Orc} (n : Bool) (h : OrcInv w o) :
    OrcInv w (o.updateNeeds n) := by
  constructor
  · rw [updateNeeds_x, updateNeeds_y]
    exact h.1
  · rw [updateNeeds_path]
    exact h.2

/-- A conditional tile overwrite of a non-Tree terrain by a walkable terrain
preserves every standing position. -/
theorem walkKeep_cond_set (w : World) (x y : Nat) (tcheck twrite : Terrain)
    (hc : tcheck ≠ Terrain.Tree) (hw : twrite.walkable = true) :
    walkKeep w (if w.get x y = tcheck then w.set x y twrite else w) := by
  split
  · next hg => exact walkKeep_set_ne_tree hw (by rw [hg]; exact hc)
  · exact walkKeep_refl w

/-- Killing an animal only drops Food on Grass: positions stay valid. -/
theorem kill_walkKeep (a : Animal) (w : World) (log : EventLog) (tick : Nat) :
    walkKeep w (a.kill w log tick).2.1 := by
  unfold Animal.kill
  simp only []
  exact walkKeep_cond_set w a.x a.y Terrain.Grass Terrain.Food (by decide) rfl

/-- A clan member placed by the rejection-sampling loop stands on a walkable
tile and carries no path. -/
theorem spawn_clan_place_inv {w : World} {orcs : List Orc} {name : String} :
    ∀ (fuel : Nat) (r : Rng) {o : Orc},
      (spawn_clan_place w orcs name fuel r).1 = some o → OrcInv w o := by
  intro fuel
  induction fuel with
  | zero =>
    intro r o h
    cases h
  | succ n ih =>
    intro r o h
    unfold spawn_clan_place at h
    rcases h1 : r.gen_range_nat 0 7 with ⟨d1, r1⟩
    rw [h1] at h
    dsimp only at h
    rcases h2 : r1.gen_range_nat 0 7 with ⟨d2, r2⟩
    rw [h2] at h
    dsimp only at h
    split at h
    · next hcond =>
      simp only [Option.some.injEq] at h
      subst h
      exact ⟨Or.inl hcond.1.2.2, fun c hc => absurd hc (List.not_mem_nil c)⟩
    · exact ih r2 h

theorem spawn_clan_go_inv {w : World} :
    ∀ (n : Nat) (used : List String) (orcs : List Orc) (r : Rng),
      (∀ o ∈ orcs, OrcInv w o) →
      ∀ o ∈ (spawn_clan_go w n used orcs r).1, OrcInv w o := by
  intro n
  induction n with
  | zero =>
    intro used orcs r hall o ho
    exact hall o ho
  | succ n ih =>
    intro used orcs r hall o ho
    rw [spawn_clan_go] at ho
    rcases h1 : pick_name r used with ⟨name, r1⟩
    rw [h1] at ho
    dsimp only at ho
    rcases h2 : spawn_clan_place w orcs name placeFuel r1 with ⟨o?, r2⟩
    rw [h2] at ho
    dsimp only at ho
    cases o? with
    | some onew =>
      refine ih _ _ _ ?_ o ho
      intro o' ho'
      rcases List.mem_append.1 ho' with ho' | ho'
      · exact hall o' ho'
      · rw [List.mem_singleton.1 ho']
        exact spawn_clan_place_inv placeFuel r1 (by rw [h2])
    | none => exact ih _ _ _ hall o ho

/-- Idle decisions only retarget and replan: the position is unchanged and
all planned waypoints are walkable-or-Tree. -/
theorem decide_action_inv {w : World} {o : Orc} {animals : List Animal} {r : Rng}
    {log : EventLog} {tick : Nat} {n : Bool}
    (hcamp : w.is_walkable w.campfire_pos.1 w.campfire_pos.2 = true)
    (h : OrcInv w o) :
    OrcInv w (o.decide_action w animals r log tick n).1 := by
  unfold Orc.decide_action
  simp only []
  split
  case _ res heq =>
    rcases orElse_some heq with h1 | hrest
    · split at h1
      · split at h1
        · cases hwa : w.find_water_adjacent o.x o.y with
          | some p =>
            rw [hwa] at h1
            dsimp only at h1
            cases h1
            exact go_to_inv h.1 (Or.inl (find_water_adjacent_walkable hwa))
          | none =>
            rw [hwa] at h1
            cases h1
        · split at h1
          · cases hft : o.find_food_target w animals with
            | some target =>
              rw [hft] at h1
              dsimp only at h1
              cases h1
              exact set_activity_inv h
                (fun tx ty s hs => find_food_target_goto (hs ▸ hft))
            | none =>
              rw [hft] at h1
              cases h1
          · rcases hsp : find_spot_near w.campfire_pos.1 w.campfire_pos.2 w 20 r
              with ⟨p, r1⟩
            rw [hsp] at h1
            dsimp only at h1
            cases h1
            have hwp := find_spot_near_walkable hcamp 20 r
            rw [hsp] at hwp
            exact go_to_inv h.1 (Or.inl hwp)
      · simp at h1
    rcases orElse_some hrest with h2 | hrest2
    · split at h2
      · rcases Option.map_eq_some'.1 h2 with ⟨p, hp, hres⟩
        cases hres
        exact go_to_inv h.1 (Or.inl (find_water_adjacent_walkable hp))
      · simp at h2
    rcases orElse_some hrest2 with h3 | hrest3
    · split at h3
      · rcases Option.map_eq_some'.1 h3 with ⟨target, hft, hres⟩
        cases hres
        exact set_activity_inv h
          (fun tx ty s hs => find_food_target_goto (hs ▸ hft))
      · simp at h3
    rcases orElse_some hrest3 with h4 | h5
    · split at h4
      · rcases hsp : find_spot_near w.campfire_pos.1 w.campfire_pos.2 w 20 r
          with ⟨p, r1⟩
        rw [hsp] at h4
        dsimp only at h4
        cases h4
        have hwp := find_spot_near_walkable hcamp 20 r
        rw [hsp] at hwp
        exact go_to_inv h.1 (Or.inl hwp)
      · simp at h4
    · split at h5
      · cases hmr : w.meat_rack_pos with
        | some p =>
          rw [hmr] at h5
          dsimp only at h5
          cases h5
          have h2 := @plan_path_inv { o with activity := Activity.CarryingMeat }
            w p.1 p.2 false h.1 (Or.inl (meat_rack_walkable hmr))
          exact h2
        | none =>
          rw [hmr] at h5
          dsimp only at h5
          cases h5
          exact ⟨h.1, h.2⟩
      · simp at h5
  case _ heq =>
    split
    · split
      · next hwk => exact go_to_inv h.1 (Or.inl hwk)
      · exact ⟨h.1, h.2⟩
    · exact ⟨h.1, h.2⟩

/-- One full orc update keeps the orc on a walkable-or-Tree tile, keeps every
cached waypoint walkable-or-Tree, and never turns a valid tile invalid. -/
theorem update_inv {w : World} {o : Orc} {animals : List Animal} {r : Rng}
    {log : EventLog} {tick : Nat} {night : Bool}
    (hcamp : w.is_walkable w.campfire_pos.1 w.campfire_pos.2 = true)
    (hanim : ∀ a ∈ animals, a.alive = true → w.is_walkable a.x a.y = true)
    (h : OrcInv w o) :
    OrcInv (o.update w animals r log tick night).world
      (o.update w animals r log tick night).orc ∧
    walkKeep w (o.update w animals r log tick night).world := by
  unfold Orc.update
  split
  · exact ⟨h, walkKeep_refl w⟩
  · simp only []
    have ho1 : OrcInv w (o.updateNeeds night) := updateNeeds_inv night h
    split
    · exact ⟨⟨ho1.1, ho1.2⟩, walkKeep_refl w⟩
    · split
      -- Sleeping
      · split
        · exact ⟨⟨ho1.1, ho1.2⟩, walkKeep_refl w⟩
        · exact ⟨ho1, walkKeep_refl w⟩
      -- Eating
      · split
        · exact ⟨⟨ho1.1, ho1.2⟩, walkKeep_refl w⟩
        · exact ⟨⟨ho1.1, ho1.2⟩, walkKeep_refl w⟩
      -- Drinking
      · split
        · exact ⟨⟨ho1.1, ho1.2⟩, walkKeep_refl w⟩
        · exact ⟨⟨ho1.1, ho1.2⟩, walkKeep_refl w⟩
      -- Hunting
      · next tIdx hact =>
        cases hga : animals[tIdx]? with
        | some a =>
          dsimp only
          split
          · next halive =>
            split
            · -- catch
              have hk1 : walkKeep w (a.kill w log tick).2.1 :=
                kill_walkKeep a w log tick
              split
              · exact ⟨OrcInv_mono hk1 ⟨ho1.1, ho1.2⟩, hk1⟩
              · have hk2 : walkKeep (a.kill w log tick).2.1
                    (if (a.kill w log tick).2.1.get a.x a.y = Terrain.Food then
                      (a.kill w log tick).2.1.set a.x a.y Terrain.Grass
                    else (a.kill w log tick).2.1) :=
                  walkKeep_cond_set _ a.x a.y Terrain.Food Terrain.Grass
                    (by decide) rfl
                have hk12 := walkKeep_trans hk1 hk2
                split
                · next p hmr =>
                  refine ⟨?_, hk12⟩
                  exact plan_path_inv (OrcInv_mono hk12 ⟨ho1.1, ho1.2⟩).1
                    (Or.inl (meat_rack_walkable hmr))
                · exact ⟨OrcInv_mono hk12 ⟨ho1.1, ho1.2⟩, hk12⟩
            · -- chase
              have hmem : a ∈ animals := List.getElem?_mem hga
              have hwa : w.is_walkable a.x a.y = true := hanim a hmem halive
              split
              · split
                · exact ⟨follow_path_inv (plan_path_inv ho1.1 (Or.inl hwa)),
                    walkKeep_refl w⟩
                · exact ⟨greedy_inv (follow_path_inv
                    (plan_path_inv ho1.1 (Or.inl hwa))), walkKeep_refl w⟩
              · split
                · exact ⟨follow_path_inv ho1, walkKeep_refl w⟩
                · exact ⟨greedy_inv (follow_path_inv ho1), walkKeep_refl w⟩
          · exact ⟨⟨ho1.1, ho1.2⟩, walkKeep_refl w⟩
        | none => exact ⟨⟨ho1.1, ho1.2⟩, walkKeep_refl w⟩
      -- CarryingMeat
      · cases hmr : w.meat_rack_pos with
        | some p =>
          dsimp only
          split
          · exact ⟨OrcInv_mono (walkKeep_stockpile w (w.food_stockpile + 1))
              ⟨ho1.1, ho1.2⟩, walkKeep_stockpile w (w.food_stockpile + 1)⟩
          · split
            · exact ⟨follow_path_inv ho1, walkKeep_refl w⟩
            · exact ⟨greedy_inv (follow_path_inv ho1), walkKeep_refl w⟩
        | none => exact ⟨⟨ho1.1, ho1.2⟩, walkKeep_refl w⟩
      -- GoingTo
      · split
        · exact ⟨(arrive_inv ho1).1, (arrive_inv ho1).2⟩
        · split
          · exact ⟨follow_path_inv ho1, walkKeep_refl w⟩
          · exact ⟨greedy_inv (follow_path_inv ho1), walkKeep_refl w⟩
      -- Idle
      · exact ⟨decide_action_inv hcamp ho1, walkKeep_refl w⟩

/-- C10: every orc position stays on a walkable-or-Tree tile (never Rock or
Water): clan spawning places orcs only on walkable tiles with an empty path,
and one orc update — given a walkable campfire tile and living animals on
walkable tiles — keeps the orc and all its cached waypoints on
walkable-or-Tree tiles of the updated world, which itself never invalidates a
previously valid tile. -/
theorem orc_position_invariant (count : Nat) (w : World) (r0 : Rng) (o : Orc)
    (animals : List Animal) (r : Rng) (log : EventLog) (tick : Nat) (night : Bool)
    (hcamp : w.is_walkable w.campfire_pos.1 w.campfire_pos.2 = true)
    (hanim : ∀ a ∈ animals, a.alive = true → w.is_walkable a.x a.y = true)
    (h : OrcInv w o) :
    (∀ o' ∈ (spawn_clan count w r0).1, OrcInv w o') ∧
    OrcInv (o.update w animals r log tick night).world
      (o.update w animals r log tick night).orc ∧
    walkKeep w (o.update w animals r log tick night).world := by
  refine ⟨?_, (update_inv hcamp hanim h).1, (update_inv hcamp hanim h).2⟩
  intro o' ho'
  exact spawn_clan_go_inv count [] [] r0
    (fun o hh => absurd hh (List.not_mem_nil o)) o' ho'

/-- C10 witness: the all-grass world with a fresh orc at (5, 7), no animals
and an empty clan spawn. -/
theorem orc_position_invariant_witness :
    (grassWorld.is_walkable grassWorld.campfire_pos.1
        grassWorld.campfire_pos.2 = true ∧
      (∀ a ∈ ([] : List Animal), a.alive = true →
        grassWorld.is_walkable a.x a.y = true) ∧
      OrcInv grassWorld (Orc.new "Grok" 5 7)) ∧
    ((∀ o' ∈ (spawn_clan 0 grassWorld ⟨fun _ => 0, 0⟩).1, OrcInv grassWorld o') ∧
      OrcInv ((Orc.new "Grok" 5 7).update grassWorld [] ⟨fun _ => 0, 0⟩
          EventLog.new 0 false).world
        ((Orc.new "Grok" 5 7).update grassWorld [] ⟨fun _ => 0, 0⟩
          EventLog.new 0 false).orc ∧
      walkKeep grassWorld ((Orc.new "Grok" 5 7).update grassWorld []
          ⟨fun _ => 0, 0⟩ EventLog.new 0 false).world) :=
  ⟨⟨rfl, fun a ha => absurd ha (List.not_mem_nil a),
    Or.inl rfl, fun c hc => absurd hc (List.not_mem_nil c)⟩,
   orc_position_invariant 0 grassWorld ⟨fun _ => 0, 0⟩ (Orc.new "Grok" 5 7) []
     ⟨fun _ => 0, 0⟩ EventLog.new 0 false rfl
     (fun a ha => absurd ha (List.not_mem_nil a))
     ⟨Or.inl rfl, fun c hc => absurd hc (List.not_mem_nil c)⟩⟩

end Orcs
